import Mathlib

/-!
Verification development for the reverse-tetris decision engine.

The definitions below are a shallow embedding of the TypeScript sources:
`core/types.ts`, `core/board.ts`, `core/constants.ts`, `core/srs.ts`,
`core/nrs.ts`, `core/game.ts` (simulatePlacement), `ai/features.ts`,
`ai/evaluator.ts`, `ai/placement.ts`, `ai/greedy.ts`, `ai/beam.ts` and
`ai/expectimax.ts`.  JavaScript numbers used as integers are modelled by
`Int`/`Nat`; scores are modelled by `ℚ` (all weight constants are exact
decimals).  Typed-array reads and writes keep the JS out-of-bounds
semantics (reads outside the array fail an `=== 0` test, writes outside
the array are dropped).
-/

unseal Rat.mul Rat.inv Rat.add Rat.sub Rat.ofScientific

namespace RTetris

/-- Piece identifiers, in the enum order of `core/types.ts` (I,O,T,S,Z,J,L). -/
inductive Piece where
  | I | O | T | S | Z | J | L
deriving DecidableEq

/-- Numeric value of the `Piece` enum member. -/
def Piece.idx : Piece → Nat
  | .I => 0
  | .O => 1
  | .T => 2
  | .S => 3
  | .Z => 4
  | .J => 5
  | .L => 6

/-- Rotation states R0..R3 of `core/types.ts`, as `Fin 4` (arithmetic is mod 4). -/
abbrev Rotation := Fin 4

/-- Two-dimensional integer vector (`Vec2` of `core/types.ts`). -/
structure Vec2 where
  x : Int
  y : Int
deriving DecidableEq

/-- Cell offsets per piece and rotation: the `PIECE_CELLS` table of
`core/constants.ts`, transcribed verbatim. -/
def pieceCells (p : Piece) (r : Rotation) : List Vec2 :=
  match p, r with
  | .I, 0 => [⟨0, 2⟩, ⟨1, 2⟩, ⟨2, 2⟩, ⟨3, 2⟩]
  | .I, 1 => [⟨2, 0⟩, ⟨2, 1⟩, ⟨2, 2⟩, ⟨2, 3⟩]
  | .I, 2 => [⟨0, 1⟩, ⟨1, 1⟩, ⟨2, 1⟩, ⟨3, 1⟩]
  | .I, 3 => [⟨1, 0⟩, ⟨1, 1⟩, ⟨1, 2⟩, ⟨1, 3⟩]
  | .O, _ => [⟨1, 1⟩, ⟨2, 1⟩, ⟨1, 2⟩, ⟨2, 2⟩]
  | .T, 0 => [⟨1, 2⟩, ⟨0, 1⟩, ⟨1, 1⟩, ⟨2, 1⟩]
  | .T, 1 => [⟨1, 2⟩, ⟨1, 1⟩, ⟨2, 1⟩, ⟨1, 0⟩]
  | .T, 2 => [⟨0, 1⟩, ⟨1, 1⟩, ⟨2, 1⟩, ⟨1, 0⟩]
  | .T, 3 => [⟨1, 2⟩, ⟨0, 1⟩, ⟨1, 1⟩, ⟨1, 0⟩]
  | .S, 0 => [⟨1, 2⟩, ⟨2, 2⟩, ⟨0, 1⟩, ⟨1, 1⟩]
  | .S, 1 => [⟨1, 2⟩, ⟨1, 1⟩, ⟨2, 1⟩, ⟨2, 0⟩]
  | .S, 2 => [⟨1, 1⟩, ⟨2, 1⟩, ⟨0, 0⟩, ⟨1, 0⟩]
  | .S, 3 => [⟨0, 2⟩, ⟨0, 1⟩, ⟨1, 1⟩, ⟨1, 0⟩]
  | .Z, 0 => [⟨0, 2⟩, ⟨1, 2⟩, ⟨1, 1⟩, ⟨2, 1⟩]
  | .Z, 1 => [⟨2, 2⟩, ⟨1, 1⟩, ⟨2, 1⟩, ⟨1, 0⟩]
  | .Z, 2 => [⟨0, 1⟩, ⟨1, 1⟩, ⟨1, 0⟩, ⟨2, 0⟩]
  | .Z, 3 => [⟨1, 2⟩, ⟨0, 1⟩, ⟨1, 1⟩, ⟨0, 0⟩]
  | .J, 0 => [⟨0, 2⟩, ⟨0, 1⟩, ⟨1, 1⟩, ⟨2, 1⟩]
  | .J, 1 => [⟨1, 2⟩, ⟨2, 2⟩, ⟨1, 1⟩, ⟨1, 0⟩]
  | .J, 2 => [⟨0, 1⟩, ⟨1, 1⟩, ⟨2, 1⟩, ⟨2, 0⟩]
  | .J, 3 => [⟨1, 2⟩, ⟨1, 1⟩, ⟨0, 0⟩, ⟨1, 0⟩]
  | .L, 0 => [⟨2, 2⟩, ⟨0, 1⟩, ⟨1, 1⟩, ⟨2, 1⟩]
  | .L, 1 => [⟨1, 2⟩, ⟨1, 1⟩, ⟨1, 0⟩, ⟨2, 0⟩]
  | .L, 2 => [⟨0, 1⟩, ⟨1, 1⟩, ⟨2, 1⟩, ⟨0, 0⟩]
  | .L, 3 => [⟨0, 2⟩, ⟨1, 2⟩, ⟨1, 1⟩, ⟨1, 0⟩]

/-- Bounding-box widths (`PIECE_BBOX_W` of `core/constants.ts`). -/
def pieceBboxW (p : Piece) : Nat :=
  match p with
  | .I => 4
  | _ => 3

/-- Playfield: flat row-major grid (`cells[y*width+x]`, row 0 at the bottom)
plus the per-column height cache, as in `core/board.ts`. -/
structure Board where
  width : Nat
  totalHeight : Nat
  cells : List Bool
  colHeights : List Int
deriving DecidableEq

/-- Fresh all-empty board (`new Board(width, totalHeight)`). -/
def Board.new (width totalHeight : Nat) : Board :=
  ⟨width, totalHeight, List.replicate (width * totalHeight) false,
    List.replicate width 0⟩

/-- Bounds-guarded cell read (`Board.get`): out-of-range coordinates read as
empty. -/
def Board.get (b : Board) (x y : Int) : Bool :=
  if x < 0 ∨ (b.width : Int) ≤ x ∨ y < 0 ∨ (b.totalHeight : Int) ≤ y then false
  else b.cells.getD (y * b.width + x).toNat false

/-- Downward scan shared by `Board.set` (empty branch) and
`rebuildColumnHeights`: `while (h > 0 && cells[(h-1)*width+x] === 0) h--`.
A read beyond the backing array yields `undefined`, which fails the `=== 0`
test and stops the scan. -/
def scanTop (cells : List Bool) (width x : Nat) : Nat → Nat
  | 0 => 0
  | n + 1 =>
    if n * width + x < cells.length ∧ cells.getD (n * width + x) false = false then
      scanTop cells width x n
    else n + 1

/-- Cell write plus incremental column-height maintenance (`Board.set`).
The typed-array cell write is dropped when the flat index is out of range;
the height update only happens for a column index inside the cache. -/
def Board.set (b : Board) (x y : Int) (val : Bool) : Board :=
  let idx : Int := y * b.width + x
  let cells :=
    if 0 ≤ idx ∧ idx < (b.cells.length : Int) then b.cells.set idx.toNat val
    else b.cells
  let colHeights :=
    if 0 ≤ x ∧ x < (b.width : Int) then
      let xi := x.toNat
      let ch := b.colHeights.getD xi 0
      if val then
        if y + 1 > ch then b.colHeights.set xi (y + 1) else b.colHeights
      else
        if y + 1 = ch then
          let h : Int := if y ≤ 0 then y else (scanTop cells b.width xi y.toNat : Int)
          b.colHeights.set xi h
        else b.colHeights
    else b.colHeights
  { b with cells := cells, colHeights := colHeights }

/-- Cached column height (`Board.getColumnHeight`). -/
def Board.getColumnHeight (b : Board) (col : Nat) : Int :=
  b.colHeights.getD col 0

/-- Maximum cached column height (`Board.getMaxHeight`, running max from 0). -/
def Board.getMaxHeight (b : Board) : Int :=
  b.colHeights.foldl (fun m h => if h > m then h else m) 0

/-- Row-full test (`Board.isRowFull`). -/
def Board.isRowFull (b : Board) (row : Nat) : Bool :=
  (List.range b.width).all fun x => b.cells.getD (row * b.width + x) false

/-- Contents of one row, bottom-up (helper for the line-clear compaction). -/
def Board.rowOf (b : Board) (r : Nat) : List Bool :=
  (b.cells.drop (r * b.width)).take b.width

/-- Line clear (`Board.clearLines`): full rows are removed, the remaining
rows are compacted downwards, the freed top rows are zeroed, and the column
heights are rebuilt (by the `scanTop` scan from the top) whenever at least
one row was cleared.  Returns the new board, the cleared count and the
cleared row indices. -/
def Board.clearLines (b : Board) : Board × Nat × List Nat :=
  let rows := List.range b.totalHeight
  let cleared := rows.filter fun r => b.isRowFull r
  let kept := rows.filter fun r => !(b.isRowFull r)
  let cells := (kept.map b.rowOf).flatten ++
    List.replicate ((b.totalHeight - kept.length) * b.width) false
  let colHeights :=
    if cleared.length > 0 then
      (List.range b.width).map fun x => (scanTop cells b.width x b.totalHeight : Int)
    else b.colHeights
  ({ b with cells := cells, colHeights := colHeights }, cleared.length, cleared)

/-- Collision test (`Board.collides`): any piece cell outside the grid or on
a filled cell fails. -/
def Board.collides (b : Board) (piece : Piece) (rotation : Rotation)
    (px py : Int) : Bool :=
  (pieceCells piece rotation).any fun cell =>
    let bx := px + cell.x
    let byy := py + cell.y
    if bx < 0 ∨ (b.width : Int) ≤ bx ∨ byy < 0 ∨ (b.totalHeight : Int) ≤ byy then true
    else b.cells.getD (byy * b.width + bx).toNat false

/-- One cell write of `Board.placePiece` (the body of its cell loop):
skips cells at `y ≥ truncateAbove` when truncation is requested. -/
def placeStep (truncateAbove : Option Int) (px py : Int) (acc : Board × List Vec2)
    (cell : Vec2) : Board × List Vec2 :=
  match acc with
  | (bd, placed) =>
    let bx := px + cell.x
    let byy := py + cell.y
    match truncateAbove with
    | some t => if t ≤ byy then (bd, placed) else (bd.set bx byy true, placed ++ [⟨bx, byy⟩])
    | none => (bd.set bx byy true, placed ++ [⟨bx, byy⟩])

/-- Piece lock (`Board.placePiece`): writes each cell via `Board.set`,
skipping cells at `y ≥ truncateAbove` when truncation is requested, and
returns the written absolute positions in table order. -/
def Board.placePiece (b : Board) (piece : Piece) (rotation : Rotation)
    (px py : Int) (truncateAbove : Option Int) : Board × List Vec2 :=
  (pieceCells piece rotation).foldl (placeStep truncateAbove px py) (b, [])

/-- Independent copy (`Board.clone`); in the pure model this rebuilds the
record field by field. -/
def Board.clone (b : Board) : Board :=
  { width := b.width, totalHeight := b.totalHeight,
    cells := b.cells, colHeights := b.colHeights }

/-- Structural hash (`Board.hash`): BigInt fold over the filled cell
indices; the values stay non-negative so `Nat` models `bigint` exactly. -/
def Board.hash (b : Board) : Nat :=
  (b.cells.enum.foldl
    (fun h ic =>
      if ic.2 then
        let h2 := h ^^^ (ic.1 * 2654435761)
        (h2 <<< 1) ||| (h2 >>> 63)
      else h)
    0)

/-- Clockwise rotation label (`rotationCW` of `core/srs.ts`). -/
def rotationCW (r : Rotation) : Rotation := r + 1

/-- Counter-clockwise rotation label (`rotationCCW` of `core/srs.ts`). -/
def rotationCCW (r : Rotation) : Rotation := r + 3

/-- Result of a successful rotation (`RotateResult` of `core/srs.ts`). -/
structure RotateResult where
  x : Int
  y : Int
  rotation : Rotation
deriving DecidableEq

/-- Wall-kick offsets for J/L/S/T/Z (`JLSTZ_KICKS` of `core/constants.ts`),
keyed by the `from>to` transition; transitions absent from the table give
an empty trial list, which makes the rotation fail exactly as the
`if (!kicks) return null` guard does. -/
def jlstzKicks (fromRot toRot : Rotation) : List Vec2 :=
  match fromRot.val, toRot.val with
  | 0, 1 => [⟨0, 0⟩, ⟨-1, 0⟩, ⟨-1, 1⟩, ⟨0, -2⟩, ⟨-1, -2⟩]
  | 1, 0 => [⟨0, 0⟩, ⟨1, 0⟩, ⟨1, -1⟩, ⟨0, 2⟩, ⟨1, 2⟩]
  | 1, 2 => [⟨0, 0⟩, ⟨1, 0⟩, ⟨1, -1⟩, ⟨0, 2⟩, ⟨1, 2⟩]
  | 2, 1 => [⟨0, 0⟩, ⟨-1, 0⟩, ⟨-1, 1⟩, ⟨0, -2⟩, ⟨-1, -2⟩]
  | 2, 3 => [⟨0, 0⟩, ⟨1, 0⟩, ⟨1, 1⟩, ⟨0, -2⟩, ⟨1, -2⟩]
  | 3, 2 => [⟨0, 0⟩, ⟨-1, 0⟩, ⟨-1, -1⟩, ⟨0, 2⟩, ⟨-1, 2⟩]
  | 3, 0 => [⟨0, 0⟩, ⟨-1, 0⟩, ⟨-1, -1⟩, ⟨0, 2⟩, ⟨-1, 2⟩]
  | 0, 3 => [⟨0, 0⟩, ⟨1, 0⟩, ⟨1, 1⟩, ⟨0, -2⟩, ⟨1, -2⟩]
  | _, _ => []

/-- Wall-kick offsets for the I piece (`I_KICKS` of `core/constants.ts`). -/
def iKicks (fromRot toRot : Rotation) : List Vec2 :=
  match fromRot.val, toRot.val with
  | 0, 1 => [⟨1, 0⟩, ⟨-1, 0⟩, ⟨2, 0⟩, ⟨-1, 1⟩, ⟨2, -2⟩]
  | 1, 0 => [⟨-1, 0⟩, ⟨1, 0⟩, ⟨-2, 0⟩, ⟨1, -1⟩, ⟨-2, 2⟩]
  | 1, 2 => [⟨0, 1⟩, ⟨-1, 1⟩, ⟨2, 1⟩, ⟨-1, -1⟩, ⟨2, 2⟩]
  | 2, 1 => [⟨0, -1⟩, ⟨1, -1⟩, ⟨-2, -1⟩, ⟨1, 1⟩, ⟨-2, -2⟩]
  | 2, 3 => [⟨-1, 0⟩, ⟨1, 0⟩, ⟨-2, 0⟩, ⟨1, -1⟩, ⟨-2, 2⟩]
  | 3, 2 => [⟨1, 0⟩, ⟨-1, 0⟩, ⟨2, 0⟩, ⟨-1, 1⟩, ⟨2, -2⟩]
  | 3, 0 => [⟨0, -1⟩, ⟨1, -1⟩, ⟨-2, -1⟩, ⟨1, 1⟩, ⟨-2, -2⟩]
  | 0, 3 => [⟨0, 1⟩, ⟨-1, 1⟩, ⟨2, 1⟩, ⟨-1, -1⟩, ⟨2, 2⟩]
  | _, _ => []

/-- Kick table selection (`getKickTable` of `core/srs.ts`); the O piece has
an empty table but is special-cased before any lookup. -/
def kickTableFor (p : Piece) (fromRot toRot : Rotation) : List Vec2 :=
  match p with
  | .I => iKicks fromRot toRot
  | .O => []
  | _ => jlstzKicks fromRot toRot

/-- SRS rotation with wall kicks (`tryRotate` of `core/srs.ts`): direction
1 is clockwise, anything else (the source only ever passes -1) is
counter-clockwise; kick offsets are tried in listed order and the first
non-colliding target wins. -/
def tryRotate (board : Board) (piece : Piece) (fromRot : Rotation)
    (direction : Int) (x y : Int) : Option RotateResult :=
  let toRot := if direction = 1 then rotationCW fromRot else rotationCCW fromRot
  match piece with
  | .O =>
    if !board.collides piece toRot x y then some ⟨x, y, toRot⟩ else none
  | _ =>
    (kickTableFor piece fromRot toRot).findSome? fun kick =>
      let nx := x + kick.x
      let ny := y + kick.y
      if !board.collides piece toRot nx ny then some ⟨nx, ny, toRot⟩ else none

/-- NRS spawn rotations (`NRS_SPAWN_ROTATION` of `core/nrs.ts`). -/
def nrsSpawnRotation (p : Piece) : Rotation :=
  match p with
  | .I => 0
  | .O => 0
  | _ => 2

/-- Next NRS rotation state (`nrsNextRotation` of `core/nrs.ts`): O never
rotates, S/Z toggle R1↔R2, I toggles R0↔R1, T/J/L cycle through four. -/
def nrsNextRotation (piece : Piece) (fromRot : Rotation) (direction : Int) :
    Option Rotation :=
  match piece with
  | .O => none
  | .S | .Z => some (if fromRot = 1 then 2 else 1)
  | .I => some (if fromRot = 0 then 1 else 0)
  | _ => some (if direction = 1 then fromRot + 1 else fromRot + 3)

/-- NRS rotation (`tryRotateNRS` of `core/nrs.ts`): no wall kicks, the
target state is tested at the unchanged position only. -/
def tryRotateNRS (board : Board) (piece : Piece) (fromRot : Rotation)
    (direction : Int) (x y : Int) : Option RotateResult :=
  match nrsNextRotation piece fromRot direction with
  | none => none
  | some toRot =>
    if !board.collides piece toRot x y then some ⟨x, y, toRot⟩ else none

/-- SRS spawn position (`getSpawnPosition` of `core/constants.ts`):
horizontally centred bounding box, I at `height - 2`, the rest at
`height - 1`. -/
def getSpawnPosition (piece : Piece) (width height : Nat) : Vec2 :=
  let bboxW := pieceBboxW piece
  let x : Int := ((width : Int) - bboxW).fdiv 2
  let y : Int := if piece = .I then (height : Int) - 2 else (height : Int) - 1
  ⟨x, y⟩

/-- NRS spawn position (`getSpawnPositionNRS` of `core/constants.ts`):
piece fully inside the visible field, top at row `height - 1`. -/
def getSpawnPositionNRS (piece : Piece) (width height : Nat) : Vec2 :=
  let bboxW := pieceBboxW piece
  let bboxH : Int := if piece = .I then 4 else 3
  ⟨((width : Int) - bboxW).fdiv 2, (height : Int) - bboxH⟩

/-- Output record of the feature extractor (`FeatureVector` of
`core/types.ts`): the eight BCTS features, in declaration order. -/
structure FeatureVector where
  landingHeight : ℚ
  erodedPieceCells : ℚ
  rowTransitions : ℚ
  colTransitions : ℚ
  holes : ℚ
  cumulativeWells : ℚ
  holeDepth : ℚ
  rowsWithHoles : ℚ
deriving DecidableEq

/-- Spread maximum (`Math.max(...list)`) over a non-empty list; the empty
case (value -Infinity in JS, which would keep every following loop from
running) is represented by 0, and is never reached on boards of positive
width. -/
def jsMathMax (l : List Int) : Int :=
  match l with
  | [] => 0
  | h :: t => t.foldl max h

/-- Running count of filled/empty flips along a list of cells, starting
from a given previous-cell state (the inner loops of features 3 and 4). -/
def transitionsFrom (prev : Bool) : List Bool → Nat
  | [] => 0
  | c :: rest => (if c ≠ prev then 1 else 0) + transitionsFrom c rest

/-- Downward hole scan for one column (features 5, 7 and 8 of
`ai/features.ts`): walks from just below the cached column height towards
the floor carrying the number of filled cells seen so far, and returns
(holes, hole depth, hole rows) for that column. -/
def holeScan (cell : Nat → Bool) : Nat → Nat → Nat × Nat × List Nat
  | 0, _ => (0, 0, [])
  | y + 1, filledAbove =>
    if cell y then holeScan cell y (filledAbove + 1)
    else
      match holeScan cell y filledAbove with
      | (h, d, rows) => (h + 1, d + filledAbove, rows ++ [y])

/-- Feature extraction (`extractFeatures` of `ai/features.ts`, the version
whose row-transition loop does not count the side walls as filled and
whose well computation gives an edge column only its single inner
neighbour).  `landingCellYs` are the pre-clear piece-cell rows;
the empty-list fallbacks (0 here, ±Infinity in JS) are never exercised, as
every caller passes the non-empty landing-cell list of a simulated lock. -/
def extractFeatures (board : Board) (landingCellYs : List Int)
    (linesCleared : Nat) (pieceCellsInCleared : Nat) : FeatureVector :=
  let w := board.width
  let h := board.totalHeight
  let minY : Int := landingCellYs.foldl min (landingCellYs.headD 0)
  let maxY : Int := landingCellYs.foldl max (landingCellYs.headD 0)
  let landingHeight : ℚ := ((minY : ℚ) + (maxY : ℚ)) / 2
  let erodedPieceCells : Nat := linesCleared * pieceCellsInCleared
  let colHeight : List Int := (List.range w).map fun x => board.getColumnHeight x
  let maxColHeight : Int := jsMathMax colHeight
  let rowTransitions : Nat :=
    ((List.range maxColHeight.toNat).map fun (y : Nat) =>
      transitionsFrom (board.get 0 y)
        ((List.range (w - 1)).map fun (i : Nat) => board.get ((i + 1 : Nat)) y)).sum
  let colTransitions : Nat :=
    ((List.range w).map fun (x : Nat) =>
      let ch := (colHeight.getD x 0).toNat
      let colCells := (List.range ch).map fun (y : Nat) => board.get x y
      transitionsFrom true colCells +
        (if colCells.getLastD true = true ∧ 0 < ch then 1 else 0)).sum
  let colScans : List (Nat × Nat × List Nat) :=
    (List.range w).map fun (x : Nat) =>
      holeScan (fun (y : Nat) => board.get x y) (colHeight.getD x 0).toNat 0
  let holes : Nat := (colScans.map fun s => s.1).sum
  let holeDepth : Nat := (colScans.map fun s => s.2.1).sum
  let rowsWithHoles : Nat :=
    ((List.range h).filter fun y => colScans.any fun s => y ∈ s.2.2).length
  let cumulativeWells : Int :=
    ((List.range w).map fun x =>
      let own := colHeight.getD x 0
      let minNeighbor : Int :=
        if x = 0 then colHeight.getD 1 0
        else if x = w - 1 then colHeight.getD (w - 2) 0
        else min (colHeight.getD (x - 1) 0) (colHeight.getD (x + 1) 0)
      let depth := minNeighbor - own
      if depth > 0 then depth * (depth + 1) / 2 else 0).sum
  { landingHeight := landingHeight
    erodedPieceCells := erodedPieceCells
    rowTransitions := rowTransitions
    colTransitions := colTransitions
    holes := holes
    cumulativeWells := (cumulativeWells : ℚ)
    holeDepth := holeDepth
    rowsWithHoles := rowsWithHoles }

/-- Weight vector type of `ai/evaluator.ts`: a tuple of exactly ten
numbers. -/
abbrev Weights := Mathlib.Vector ℚ 10

/-- Weight entry at index `i` (tuple component access `weights[i]`). -/
def weightAt (w : Weights) (i : Fin 10) : ℚ := w.get i

/-- Record of every field read by `evaluate` in `ai/evaluator.ts`: the
eight `FeatureVector` fields plus `bumpiness` and `maxHeight`.  The
extractor of `ai/features.ts` does not produce the last two; they are
modelled as explicitly supplied values. -/
structure EvalFeatures extends FeatureVector where
  bumpiness : ℚ
  maxHeight : ℚ
deriving DecidableEq

/-- Linear evaluation (`evaluate` of `ai/evaluator.ts`): ten products, in
the declared weight order. -/
def evaluate (features : EvalFeatures) (weights : Weights) : ℚ :=
  weightAt weights 0 * features.landingHeight +
  weightAt weights 1 * features.erodedPieceCells +
  weightAt weights 2 * features.rowTransitions +
  weightAt weights 3 * features.colTransitions +
  weightAt weights 4 * features.holes +
  weightAt weights 5 * features.cumulativeWells +
  weightAt weights 6 * features.holeDepth +
  weightAt weights 7 * features.rowsWithHoles +
  weightAt weights 8 * features.bumpiness +
  weightAt weights 9 * features.maxHeight

/-- BCTS default weights (`BCTS_WEIGHTS` of `ai/evaluator.ts`). -/
def BCTS_WEIGHTS : Weights :=
  ⟨[-1263/100, 660/100, -922/100, -1977/100, -1308/100, -1049/100,
    -161/100, -2404/100, 0, 0], rfl⟩

/-- NRS-adjusted weights (`NRS_WEIGHTS` of `ai/evaluator.ts`). -/
def NRS_WEIGHTS : Weights :=
  ⟨[-18, 660/100, -922/100, -1977/100, -26, -20, -8, -36, -5, -3], rfl⟩

/-- Bridge from the extractor output to the evaluator input: the spec pairs
weight index i with extractor field i, and the two evaluator-only fields
(whose tuned weight entries are 0 in `BCTS_WEIGHTS`) carry no feature
produced by `extractFeatures`; the planners' composition of the two is
modelled by supplying 0 for both. -/
def toEvalFeatures (f : FeatureVector) : EvalFeatures :=
  { f with bumpiness := 0, maxHeight := 0 }

/-- Feature fields in the fixed extractor order, as a list (the ordering
contract of `core/types.ts` / spec section 4.4). -/
def featureList (f : FeatureVector) : List ℚ :=
  [f.landingHeight, f.erodedPieceCells, f.rowTransitions, f.colTransitions,
   f.holes, f.cumulativeWells, f.holeDepth, f.rowsWithHoles]

/-- Chosen placement record (`Placement` of `core/types.ts`). -/
structure Placement where
  piece : Piece
  rotation : Rotation
  x : Int
  y : Int
  held : Bool
deriving DecidableEq

/-- Result record of `Game.simulatePlacement`. -/
structure SimResult where
  board : Board
  linesCleared : Nat
  pieceCellsInCleared : Nat
  landingCells : List Vec2
deriving DecidableEq

/-- Pure lock simulation (`Game.simulatePlacement` of `core/game.ts`):
clone, collision check, cell writes (with optional NES truncation),
lock-out rejection (only when a visible height is supplied and truncation
is off), line clear and eroded-cell count. -/
def simulatePlacement (board : Board) (piece : Piece) (rotation : Rotation)
    (x y : Int) (visibleHeight : Option Int) (truncateAbove : Option Int) :
    Option SimResult :=
  let b := board.clone
  if b.collides piece rotation x y then none
  else
    match b.placePiece piece rotation x y truncateAbove with
    | (b2, landingCells) =>
      if landingCells = [] then none
      else
        let lockOut :=
          match visibleHeight, truncateAbove with
          | some vh, none => landingCells.all fun cell => vh ≤ cell.y
          | _, _ => false
        if lockOut then none
        else
          match b2.clearLines with
          | (b3, count, rows) =>
            let pieceCellsInCleared :=
              if count > 0 then
                (landingCells.filter fun cell => rows.any fun r => (r : Int) = cell.y).length
              else 0
            some ⟨b3, count, pieceCellsInCleared, landingCells⟩

/-- Reachable placement (`ReachablePlacement` of `ai/placement.ts`). -/
structure ReachablePlacement where
  piece : Piece
  rotation : Rotation
  x : Int
  y : Int
deriving DecidableEq

/-- BFS search node (`BfsState` of `ai/placement.ts`). -/
structure BfsState where
  x : Int
  y : Int
  rotation : Rotation
deriving DecidableEq

/-- Integer encoding of a BFS node (`encodeState` of `ai/placement.ts`). -/
def encodeState (x y : Int) (rot : Rotation) (stride : Nat) : Int :=
  ((y + 4) * stride + (x + 4)) * 4 + rot.val

/-- Guarded visited-set insertion and enqueue: a node is pushed exactly
when its encoding is inside the visited array and not yet marked. -/
def tryPush (stride size : Nat) (visited : List Bool) (queue : List BfsState)
    (s : BfsState) : List Bool × List BfsState :=
  let idx := encodeState s.x s.y s.rotation stride
  if 0 ≤ idx ∧ idx < (size : Int) ∧ visited.getD idx.toNat false = false then
    (visited.set idx.toNat true, queue ++ [s])
  else (visited, queue)

/-- One BFS step worth of successor pushes, in source order: soft drop,
move left, move right, rotate clockwise, rotate counter-clockwise. -/
def pushSuccessors (b : Board) (piece : Piece) (stride size : Nat)
    (visited : List Bool) (queue : List BfsState) (s : BfsState)
    (canMoveDown : Bool) : List Bool × List BfsState :=
  match
    (if canMoveDown then tryPush stride size visited queue ⟨s.x, s.y - 1, s.rotation⟩
     else (visited, queue)) with
  | (v1, q1) =>
    match
      (if !b.collides piece s.rotation (s.x - 1) s.y then
        tryPush stride size v1 q1 ⟨s.x - 1, s.y, s.rotation⟩
      else (v1, q1)) with
    | (v2, q2) =>
      match
        (if !b.collides piece s.rotation (s.x + 1) s.y then
          tryPush stride size v2 q2 ⟨s.x + 1, s.y, s.rotation⟩
        else (v2, q2)) with
      | (v3, q3) =>
        match
          (match tryRotate b piece s.rotation 1 s.x s.y with
           | some r => tryPush stride size v3 q3 ⟨r.x, r.y, r.rotation⟩
           | none => (v3, q3)) with
        | (v4, q4) =>
          match tryRotate b piece s.rotation (-1) s.x s.y with
          | some r => tryPush stride size v4 q4 ⟨r.x, r.y, r.rotation⟩
          | none => (v4, q4)

/-- Work-list loop of `generatePlacements`: pops the queue head, records it
as a grounded placement when it cannot move down (deduplicating by the
(rotation, x, y) key, the model of the template string key), then pushes
the unvisited successors.  The fuel argument only bounds the recursion;
`generatePlacements` supplies more fuel than the loop can consume, since
each iteration pops one node and every push marks a fresh visited bit. -/
def bfsLoop (b : Board) (piece : Piece) (stride size : Nat) :
    Nat → List BfsState → List Bool → List (Rotation × Int × Int) →
    List ReachablePlacement → List ReachablePlacement
  | 0, _, _, _, acc => acc
  | _ + 1, [], _, _, acc => acc
  | fuel + 1, s :: rest, visited, keys, acc =>
    let canMoveDown := !b.collides piece s.rotation s.x (s.y - 1)
    let key : Rotation × Int × Int := (s.rotation, s.x, s.y)
    match
      (if canMoveDown = false ∧ ¬ key ∈ keys then
        (keys ++ [key], acc ++ [⟨piece, s.rotation, s.x, s.y⟩])
      else (keys, acc)) with
    | (keys2, acc2) =>
      match pushSuccessors b piece stride size visited rest s canMoveDown with
      | (v5, q5) => bfsLoop b piece stride size fuel q5 v5 keys2 acc2

/-- Reachable-placement enumeration (`generatePlacements` of
`ai/placement.ts`, the four-parameter version: spawn rotation fixed at R0
and rotation edges through SRS `tryRotate`; extra arguments passed by
`ai/beam.ts`/`ai/expectimax.ts` are ignored by JS call semantics).
Returns empty immediately when the spawn itself collides. -/
def generatePlacements (b : Board) (piece : Piece) (spawnX spawnY : Int) :
    List ReachablePlacement :=
  if b.collides piece 0 spawnX spawnY then []
  else
    let stride := b.width + 8
    let size := (b.totalHeight + 8) * stride * 4
    let startIdx := encodeState spawnX spawnY 0 stride
    let visited0 := List.replicate size false
    let visited :=
      if 0 ≤ startIdx ∧ startIdx < (size : Int) then visited0.set startIdx.toNat true
      else visited0
    bfsLoop b piece stride size (size + 1) [⟨spawnX, spawnY, 0⟩] visited [] []

/-- Active rotation-system tag of a snapshot (`config.rotationSystem`). -/
inductive RotSys where
  | srs | nrs
deriving DecidableEq

/-- Decision-time snapshot (`GameSnapshot` of `core/types.ts`). -/
structure GameSnapshot where
  board : Board
  height : Nat
  rotationSystem : RotSys
  initialDrop : Bool
  truncateLock : Bool
  currentPiece : Piece
  holdPiece : Option Piece
  holdUsed : Bool
  allowHold : Bool
  preview : List Piece
  linesCleared : Nat
  piecesPlaced : Nat
deriving DecidableEq

/-- Strict comparison against a running best that starts at -Infinity
(`score > bestScore` with `bestScore = -Infinity`), the shared
first-seen-wins selection test of all three planners. -/
def gtOpt (score : ℚ) : Option ℚ → Bool
  | none => true
  | some best => decide (best < score)

/-- Loop body shared by the two branches of `greedySelect`: simulate,
extract, evaluate and keep the placement on strict improvement. -/
def greedyStep (board : Board) (weights : Weights) (held : Bool)
    (acc : Option ℚ × Option Placement) (p : ReachablePlacement) :
    Option ℚ × Option Placement :=
  match acc with
  | (bestScore, bestPlacement) =>
    match simulatePlacement board p.piece p.rotation p.x p.y none none with
    | none => (bestScore, bestPlacement)
    | some sim =>
      let cellYs := sim.landingCells.map fun c => c.y
      let features := extractFeatures sim.board cellYs sim.linesCleared sim.pieceCellsInCleared
      let score := evaluate (toEvalFeatures features) weights
      if gtOpt score bestScore then (some score, some ⟨p.piece, p.rotation, p.x, p.y, held⟩)
      else (bestScore, bestPlacement)

/-- One-ply greedy planner (`greedySelect` of `ai/greedy.ts`): evaluates
every reachable placement of the current piece and, when hold is allowed
and unused, of the hold target (`holdPiece ?? preview[0]`), and returns the
global first-seen best.  The visible height is hard-coded as
`board.totalHeight - 4`. -/
def greedySelect (snapshot : GameSnapshot) (weights : Weights) : Option Placement :=
  let board := snapshot.board
  let width := board.width
  let height := board.totalHeight - 4
  let spawn := getSpawnPosition snapshot.currentPiece width height
  let placements := generatePlacements board snapshot.currentPiece spawn.x spawn.y
  let acc1 := placements.foldl (greedyStep board weights false) (none, none)
  let acc2 :=
    if snapshot.allowHold ∧ snapshot.holdUsed = false then
      match snapshot.holdPiece.orElse fun _ => snapshot.preview.head? with
      | some holdTarget =>
        let holdSpawn := getSpawnPosition holdTarget width height
        let holdPlacements := generatePlacements board holdTarget holdSpawn.x holdSpawn.y
        holdPlacements.foldl (greedyStep board weights true) acc1
      | none => acc1
    else acc1
  acc2.2

/-- Stable insertion step of the sort model: a later element is placed
after every earlier element it does not strictly precede. -/
def jsInsert (before : α → α → Bool) (x : α) : List α → List α
  | [] => [x]
  | y :: ys => if before x y then x :: y :: ys else y :: jsInsert before x ys

/-- Model of `Array.prototype.sort` with a consistent comparator (stable
per ECMAScript): `before a b` holds when the comparator orders `a`
strictly before `b`. -/
def jsSort (before : α → α → Bool) (l : List α) : List α :=
  l.foldl (fun acc x => jsInsert before x acc) []

/-- Model of `list.slice(0, e)` with the ECMAScript end-index clamping
(negative `e` counts back from the end). -/
def jsSliceTo (l : List α) (e : Int) : List α :=
  let len : Int := l.length
  let stop := if e < 0 then max (len + e) 0 else min e len
  l.take stop.toNat

/-- Beam-search configuration (`BeamSearchConfig` of `ai/beam.ts`). -/
structure BeamSearchConfig where
  depth : Int
  beamWidth : Int
deriving DecidableEq

/-- Surviving beam candidate (`BeamCandidate` of `ai/beam.ts`). -/
structure BeamCandidate where
  board : Board
  score : ℚ
  firstAction : Placement
  holdPiece : Option Piece
  nextPieceIndex : Nat
deriving DecidableEq

/-- Top-B pruning (`pruneBeam` of `ai/beam.ts`): descending stable sort by
score, then `slice(0, beamWidth)`; lists already within the width are
returned untouched. -/
def pruneBeam (candidates : List BeamCandidate) (beamWidth : Int) : List BeamCandidate :=
  if (candidates.length : Int) ≤ beamWidth then candidates
  else jsSliceTo (jsSort (fun a b => decide (b.score < a.score)) candidates) beamWidth

/-- Candidate-collection step of `expandPiece` (the body of its
`for (const p of placements)` loop): simulate, extract, evaluate and
append one scored candidate; failed simulations are skipped. -/
def bcCollect (board : Board) (weights : Weights) (height : Nat) (truncAbove : Option Int)
    (firstAction : Option Placement) (holdPiece : Option Piece) (nextPieceIndex : Nat)
    (held : Bool) (acc : List BeamCandidate) (p : ReachablePlacement) : List BeamCandidate :=
  match simulatePlacement board p.piece p.rotation p.x p.y (some height) truncAbove with
  | none => acc
  | some sim =>
    let cellYs := sim.landingCells.map fun c => c.y
    let features := extractFeatures sim.board cellYs sim.linesCleared sim.pieceCellsInCleared
    let score := evaluate (toEvalFeatures features) weights
    let action : Placement := ⟨p.piece, p.rotation, p.x, p.y, held⟩
    acc ++ [⟨sim.board, score, firstAction.getD action, holdPiece, nextPieceIndex⟩]

/-- First-seen-wins strict maximum step over beam candidates by score (the
reduction at the end of `beamSearchSelect`). -/
def bcMaxStep (best : Option BeamCandidate) (c : BeamCandidate) : Option BeamCandidate :=
  match best with
  | none => some c
  | some b => if decide (b.score < c.score) then some c else best

/-- Candidate expansion (`expandPiece` of `ai/beam.ts`): block-out check at
the raw spawn, optional initial drop, then one scored candidate per
reachable placement, appended in enumeration order.  The rotation-system
arguments beam search passes to `generatePlacements` are dropped by the
four-parameter enumerator. -/
def expandPiece (board : Board) (piece : Piece) (height width : Nat)
    (weights : Weights) (srFn : Piece → Rotation) (spFn : Piece → Nat → Nat → Vec2)
    (candidates : List BeamCandidate) (firstAction : Option Placement)
    (holdPiece : Option Piece) (nextPieceIndex : Nat) (held : Bool)
    (initialDrop : Bool) (truncAbove : Option Int) : List BeamCandidate :=
  let spawnRot := srFn piece
  let rawSpawn := spFn piece width height
  if board.collides piece spawnRot rawSpawn.x rawSpawn.y then candidates
  else
    let spawnY :=
      if initialDrop ∧ board.collides piece spawnRot rawSpawn.x (rawSpawn.y - 1) = false then
        rawSpawn.y - 1
      else rawSpawn.y
    let placements := generatePlacements board piece rawSpawn.x spawnY
    placements.foldl
      (bcCollect board weights height truncAbove firstAction holdPiece nextPieceIndex held)
      candidates

/-- One deeper beam level (body of the `for (level = 1; ...)` loop of
`beamSearchSelect`): re-expands every survivor with its next known preview
piece plus the hold variants. -/
def beamExpandLevel (snapshot : GameSnapshot) (weights : Weights)
    (height width : Nat) (srFn : Piece → Rotation) (spFn : Piece → Nat → Nat → Vec2)
    (initialDrop : Bool) (truncAbove : Option Int)
    (candidates : List BeamCandidate) : List BeamCandidate :=
  candidates.foldl
    (fun nextCandidates c =>
      let pieceIdx := c.nextPieceIndex
      match snapshot.preview.get? pieceIdx with
      | none => nextCandidates
      | some piece =>
        let afterA := expandPiece c.board piece height width weights srFn spFn
          nextCandidates (some c.firstAction) c.holdPiece (pieceIdx + 1) false
          initialDrop truncAbove
        if snapshot.allowHold then
          match c.holdPiece with
          | some hp =>
            expandPiece c.board hp height width weights srFn spFn
              afterA (some c.firstAction) (some piece) (pieceIdx + 1) true
              initialDrop truncAbove
          | none =>
            match snapshot.preview.get? (pieceIdx + 1) with
            | some np =>
              expandPiece c.board np height width weights srFn spFn
                afterA (some c.firstAction) (some piece) (pieceIdx + 2) true
                initialDrop truncAbove
            | none => afterA
        else afterA)
    []

/-- Deeper levels of beam search, with the early `break` on an empty
expansion keeping the previous level's survivors. -/
def beamLoop (snapshot : GameSnapshot) (weights : Weights) (beamWidth : Int)
    (height width : Nat) (srFn : Piece → Rotation) (spFn : Piece → Nat → Nat → Vec2)
    (initialDrop : Bool) (truncAbove : Option Int) :
    Nat → List BeamCandidate → List BeamCandidate
  | 0, candidates => candidates
  | levels + 1, candidates =>
    let nextCandidates :=
      beamExpandLevel snapshot weights height width srFn spFn initialDrop truncAbove candidates
    if nextCandidates = [] then candidates
    else
      beamLoop snapshot weights beamWidth height width srFn spFn initialDrop truncAbove
        levels (pruneBeam nextCandidates beamWidth)

/-- Beam-search planner (`beamSearchSelect` of `ai/beam.ts`): level 0
expands the current piece plus the hold variant, later levels expand the
known preview (effective depth `min(depth, preview.length + 1)`), and the
answer is the first action of the highest-scoring survivor, first seen
winning ties. -/
def beamSearchSelect (snapshot : GameSnapshot) (weights : Weights)
    (config : BeamSearchConfig) : Option Placement :=
  let board := snapshot.board
  let width := board.width
  let height := snapshot.height
  let initialDrop := snapshot.initialDrop
  let truncAbove : Option Int := if snapshot.truncateLock then some height else none
  let srFn : Piece → Rotation := fun _ => 0
  let spFn := getSpawnPosition
  let candidatesA := expandPiece board snapshot.currentPiece height width weights srFn spFn
    [] none snapshot.holdPiece 0 false initialDrop truncAbove
  let candidates0 :=
    if snapshot.allowHold ∧ snapshot.holdUsed = false then
      match snapshot.holdPiece with
      | some hp =>
        expandPiece board hp height width weights srFn spFn
          candidatesA none (some snapshot.currentPiece) 0 true initialDrop truncAbove
      | none =>
        match snapshot.preview.head? with
        | some p0 =>
          expandPiece board p0 height width weights srFn spFn
            candidatesA none (some snapshot.currentPiece) 1 true initialDrop truncAbove
        | none => candidatesA
    else candidatesA
  if candidates0 = [] then none
  else
    let pruned0 := pruneBeam candidates0 config.beamWidth
    let maxDepth : Int := min config.depth ((snapshot.preview.length : Int) + 1)
    let levels : Nat := (maxDepth - 1).toNat
    let final := beamLoop snapshot weights config.beamWidth height width srFn spFn
      initialDrop truncAbove levels pruned0
    (final.foldl bcMaxStep none).map fun c => c.firstAction

/-- The seven piece identities iterated by chance nodes (`ALL_PIECES` of
`ai/expectimax.ts`). -/
def ALL_PIECES : List Piece := [.I, .O, .T, .S, .Z, .J, .L]

/-- Fixed CVaR tail fraction (`CVAR_ALPHA` of `ai/expectimax.ts`): a module
constant, not a configuration field. -/
def CVAR_ALPHA : ℚ := 30 / 100

/-- Expectimax configuration (`ExpectimaxConfig` of `ai/expectimax.ts`):
the search depth is its only field. -/
structure ExpectimaxConfig where
  depth : Int
deriving DecidableEq

/-- Memo key: the components of the template string
`hash_currentPiece_nextPiece_depth`, whose decimal renderings make string
equality agree with componentwise equality. -/
abbrev MemoKey := Nat × Nat × Nat × Nat

/-- Transposition memo (`Map<string, number>`), as an insertion-ordered
association list. -/
abbrev Memo := List (MemoKey × ℚ)

/-- First binding for a key (`memo.get`). -/
def memoFind (m : Memo) (k : MemoKey) : Option ℚ :=
  (m.find? fun e => decide (e.1 = k)).map fun e => e.2

/-- Insert-or-overwrite (`memo.set`). -/
def memoSet (m : Memo) (k : MemoKey) (v : ℚ) : Memo :=
  if m.any fun e => decide (e.1 = k) then
    m.map fun e => if e.1 = k then (k, v) else e
  else m ++ [(k, v)]

/-- CVaR aggregation inlined in `chanceNode`: ascending sort, sum of the
`Math.floor(k)` worst entries plus the fractional boundary term, divided
by `k = CVAR_ALPHA * values.length`. -/
def cvarOf (values : List ℚ) : ℚ :=
  let sorted := jsSort (fun a b => decide (a < b)) values
  let k : ℚ := CVAR_ALPHA * values.length
  let fullCount : Nat := k.floor.toNat
  let fractional : ℚ := k - fullCount
  let sum := (sorted.take fullCount).sum +
    (if 0 < fractional ∧ fullCount < values.length then fractional * sorted.getD fullCount 0
     else 0)
  sum / k

/-- Parameters threaded through the expectimax recursion (the argument
bundle of `chanceNode`/`maxNode`; the rotation function argument is
omitted because the four-parameter `generatePlacements` discards it). -/
structure SearchCtx where
  weights : Weights
  width : Nat
  height : Nat
  srFn : Piece → Rotation
  spFn : Piece → Nat → Nat → Vec2
  initialDrop : Bool
  truncAbove : Option Int

/-- MAX node (`maxNode` of `ai/expectimax.ts`): memo lookup, block-out
check (memoised -1e9), optional initial drop, then the best value over all
reachable placements — leaf evaluation at depth ≤ 1, recursion into the
chance layer (passed in as `chanceRec`) otherwise; `-1e9` when no
placement simulates. -/
def maxNode (ctx : SearchCtx) (chanceRec : Board → Piece → Memo → ℚ × Memo)
    (board : Board) (currentPiece nextPiece : Piece) (depth : Nat) (memo : Memo) :
    ℚ × Memo :=
  let key : MemoKey := (board.hash, currentPiece.idx, nextPiece.idx, depth)
  match memoFind memo key with
  | some cached => (cached, memo)
  | none =>
    let spawnRot := ctx.srFn currentPiece
    let rawSpawn := ctx.spFn currentPiece ctx.width ctx.height
    if board.collides currentPiece spawnRot rawSpawn.x rawSpawn.y then
      (-(10 ^ 9 : ℚ), memoSet memo key (-(10 ^ 9 : ℚ)))
    else
      let spawnY :=
        if ctx.initialDrop ∧
            board.collides currentPiece spawnRot rawSpawn.x (rawSpawn.y - 1) = false then
          rawSpawn.y - 1
        else rawSpawn.y
      let placements := generatePlacements board currentPiece rawSpawn.x spawnY
      match placements.foldl
        (fun (acc : Option ℚ × Memo) p =>
          match acc with
          | (bestAcc, memoAcc) =>
            match simulatePlacement board p.piece p.rotation p.x p.y (some ctx.height)
                ctx.truncAbove with
            | none => (bestAcc, memoAcc)
            | some sim =>
              match
                (if depth ≤ 1 then
                  let cellYs := sim.landingCells.map fun c => c.y
                  let features :=
                    extractFeatures sim.board cellYs sim.linesCleared sim.pieceCellsInCleared
                  ((evaluate (toEvalFeatures features) ctx.weights, memoAcc) : ℚ × Memo)
                else chanceRec sim.board nextPiece memoAcc) with
              | (value, memo2) =>
                if gtOpt value bestAcc then (some value, memo2) else (bestAcc, memo2))
        (none, memo) with
      | (bestOpt, memoOut) =>
        let best := bestOpt.getD (-(10 ^ 9 : ℚ))
        (best, memoSet memoOut key best)

/-- Branch-value collection of `chanceNode`: one MAX-node value per piece
identity in `ALL_PIECES` order, with the memo threaded left to right. -/
def chanceBranchValues (ctx : SearchCtx) (chanceRec : Board → Piece → Memo → ℚ × Memo)
    (depth : Nat) (board : Board) (currentPiece : Piece) (memo : Memo) :
    List ℚ × Memo :=
  ALL_PIECES.foldl
    (fun (acc : List ℚ × Memo) nextPiece =>
      match acc with
      | (values, memoAcc) =>
        match maxNode ctx chanceRec board currentPiece nextPiece depth memoAcc with
        | (v, memo2) => (values ++ [v], memo2))
    ([], memo)

/-- Body of `chanceNode`: the seven branch values aggregated by CVaR. -/
def chanceStep (ctx : SearchCtx) (chanceRec : Board → Piece → Memo → ℚ × Memo)
    (depth : Nat) (board : Board) (currentPiece : Piece) (memo : Memo) : ℚ × Memo :=
  match chanceBranchValues ctx chanceRec depth board currentPiece memo with
  | (values, memoOut) => (cvarOf values, memoOut)

/-- CHANCE node (`chanceNode` of `ai/expectimax.ts`).  The recursion is
organised over the depth counter: at depth 0 every inner MAX node takes
the `depth ≤ 1` leaf branch, so the recursive argument supplied there is
never applied. -/
def chanceNode (ctx : SearchCtx) : Nat → Board → Piece → Memo → ℚ × Memo
  | 0 => chanceStep ctx (fun _ _ m => (0, m)) 0
  | d + 1 => chanceStep ctx (chanceNode ctx d) (d + 1)

/-- Recursive continuation supplied to the chance-node body at a given
depth counter (the unused dummy at depth 0, the next `chanceNode` layer
otherwise). -/
def chanceNodeRec (ctx : SearchCtx) : Nat → Board → Piece → Memo → ℚ × Memo
  | 0 => fun _ _ m => (0, m)
  | d + 1 => chanceNode ctx d

/-- Candidate afterstate for dominance pruning (`AfterState` of
`ai/expectimax.ts`).  Its `maxH` field is read from the feature record,
which the eight-field extractor does not populate; the bridged value (0)
stands in for it. -/
structure AfterState where
  placement : Placement
  board : Board
  leafScore : ℚ
  holes : ℚ
  maxH : ℚ
deriving DecidableEq

/-- Candidate-collection step of `expectimaxSelect`'s phase 1 (the body of
its `for (const p of placements)` loop): simulate, extract, evaluate and
append one afterstate; failed simulations are skipped. -/
def exCollect (board : Board) (weights : Weights) (height : Nat) (truncAbove : Option Int)
    (acc : List AfterState) (p : ReachablePlacement) : List AfterState :=
  match simulatePlacement board p.piece p.rotation p.x p.y (some height) truncAbove with
  | none => acc
  | some sim =>
    let cellYs := sim.landingCells.map fun c => c.y
    let features := extractFeatures sim.board cellYs sim.linesCleared sim.pieceCellsInCleared
    let leafScore := evaluate (toEvalFeatures features) weights
    acc ++ [⟨⟨p.piece, p.rotation, p.x, p.y, false⟩, sim.board, leafScore, features.holes,
      (toEvalFeatures features).maxHeight⟩]

/-- First-seen-wins strict maximum step over afterstates by leaf score
(the reduction at the end of `expectimaxSelect`'s depth-≤-1 branch). -/
def aftMaxStep (best : Option AfterState) (c : AfterState) : Option AfterState :=
  match best with
  | none => some c
  | some b => if decide (b.leafScore < c.leafScore) then some c else best

/-- Dominance-lite pruning (`dominancePrune` of `ai/expectimax.ts`):
descending stable sort by leaf score, then drop any candidate weakly
dominated by an already-kept one. -/
def dominancePrune (candidates : List AfterState) : List AfterState :=
  let sorted := jsSort (fun a b => decide (b.leafScore < a.leafScore)) candidates
  sorted.foldl
    (fun kept c =>
      if kept.any fun k =>
          decide (k.holes ≤ c.holes) && decide (k.maxH ≤ c.maxH) &&
          decide (c.leafScore ≤ k.leafScore) then kept
      else kept ++ [c])
    []

/-- Expectimax planner (`expectimaxSelect` of `ai/expectimax.ts`):
block-out returns none; phase 1 scores every placement of the current
piece (no hold branch); depth ≤ 1 or an empty preview returns the best
leaf; otherwise dominance pruning followed by the chance-layer search.
`(depth - 1).toNat` is only reached when `depth ≥ 2`. -/
def expectimaxSelect (snapshot : GameSnapshot) (weights : Weights)
    (config : ExpectimaxConfig) : Option Placement :=
  let board := snapshot.board
  let width := board.width
  let height := snapshot.height
  let nextPiece := snapshot.preview.head?
  let doInitialDrop := snapshot.initialDrop
  let truncAbove : Option Int := if snapshot.truncateLock then some height else none
  let srFn : Piece → Rotation :=
    match snapshot.rotationSystem with
    | .nrs => nrsSpawnRotation
    | .srs => fun _ => 0
  let spFn :=
    match snapshot.rotationSystem with
    | .nrs => getSpawnPositionNRS
    | .srs => getSpawnPosition
  let spawnRot := srFn snapshot.currentPiece
  let rawSpawn := spFn snapshot.currentPiece width height
  if board.collides snapshot.currentPiece spawnRot rawSpawn.x rawSpawn.y then none
  else
    let spawnY :=
      if doInitialDrop ∧
          board.collides snapshot.currentPiece spawnRot rawSpawn.x (rawSpawn.y - 1) = false then
        rawSpawn.y - 1
      else rawSpawn.y
    let placements := generatePlacements board snapshot.currentPiece rawSpawn.x spawnY
    if placements = [] then none
    else
      let candidates := placements.foldl (exCollect board weights height truncAbove) []
      if candidates = [] then none
      else if config.depth ≤ 1 ∨ nextPiece = none then
        (candidates.foldl aftMaxStep none).map fun c => c.placement
      else
        match nextPiece with
        | none => none
        | some np =>
          let pruned := dominancePrune candidates
          let ctx : SearchCtx := ⟨weights, width, height, srFn, spFn, doInitialDrop, truncAbove⟩
          match pruned.foldl
            (fun (acc : Option ℚ × Option Placement × Memo) c =>
              match acc with
              | (bestScore, bestPlacement, memoAcc) =>
                match chanceNode ctx (config.depth - 1).toNat c.board np memoAcc with
                | (value, memo2) =>
                  if gtOpt value bestScore then (some value, some c.placement, memo2)
                  else (bestScore, bestPlacement, memo2))
            (none, none, []) with
          | (_, bestPlacement, _) => bestPlacement

/-! Spec-side definitions, written from the specification's wording, used
only to compare against the code-side definitions above. -/

/-- Modelled from the spec: row transitions with the side walls counted as
filled — per row up to the tallest column, one flip between the left wall
(filled) and the first cell, one per adjacent cell pair that differs, and
one between the last cell and the right wall (filled). -/
def specRowTransitionsWallsFilled (board : Board) : Nat :=
  let w := board.width
  let maxH := (jsMathMax ((List.range w).map fun x => board.getColumnHeight x)).toNat
  ((List.range maxH).map fun (y : Nat) =>
    (if board.get 0 y = false then 1 else 0) +
    ((List.range (w - 1)).filter fun (i : Nat) =>
      board.get i y ≠ board.get ((i + 1 : Nat)) y).length +
    (if board.get ((w - 1 : Nat)) y = false then 1 else 0)).sum

/-- Modelled from the spec (amended): row transitions with open side
walls — per row up to the tallest column, one flip per adjacent cell pair
that differs, wall cells contributing nothing. -/
def specRowTransitionsOpen (board : Board) : Nat :=
  let w := board.width
  let maxH := (jsMathMax ((List.range w).map fun x => board.getColumnHeight x)).toNat
  ((List.range maxH).map fun (y : Nat) =>
    ((List.range (w - 1)).filter fun (i : Nat) =>
      board.get i y ≠ board.get ((i + 1 : Nat)) y).length).sum

/-- Modelled from the spec: cumulative wells with an edge column's missing
neighbour treated as an infinitely tall wall (`none` stands for the
infinite height): depth = max(0, min(leftHeight, rightHeight) − own),
contribution depth·(depth+1)/2. -/
def specCumulativeWells (board : Board) : Int :=
  let w := board.width
  ((List.range w).map fun x =>
    let own := board.getColumnHeight x
    let left : Option Int := if x = 0 then none else some (board.getColumnHeight (x - 1))
    let right : Option Int := if x = w - 1 then none else some (board.getColumnHeight (x + 1))
    let mn : Option Int :=
      match left, right with
      | none, r => r
      | some a, none => some a
      | some a, some b => some (min a b)
    match mn with
    | none => 0
    | some v =>
      let depth := max 0 (v - own)
      depth * (depth + 1) / 2).sum

/-- Modelled from the spec: CVaR(α) aggregation — sort the branch values
ascending, average only the worst α-fraction, linearly interpolating the
boundary branch when α·n is not an integer. -/
def cvarSpec (α : ℚ) (values : List ℚ) : ℚ :=
  let sorted := values.insertionSort (· ≤ ·)
  let k : ℚ := α * values.length
  let m : Nat := k.floor.toNat
  ((sorted.take m).sum + (k - m) * sorted.getD m 0) / k

/-- Test for a two-state toggle piece under the no-kick system: some pair
of distinct rotation labels receives every rotation result. -/
def nrsTwoStateToggler (p : Piece) : Bool :=
  (List.finRange 4).any fun a =>
    (List.finRange 4).any fun b =>
      decide (a ≠ b) &&
      (List.finRange 4).all fun r =>
        ([1, -1] : List Int).all fun d =>
          decide (nrsNextRotation p r d = some a) || decide (nrsNextRotation p r d = some b)

/-- `n` is the height of column `x`: the cell below it is filled (when the
column is non-empty) and everything from `n` up is empty. -/
def colTopAboveN (b : Board) (x n : Nat) : Prop :=
  n ≤ b.totalHeight ∧ (0 < n → b.get x ((n - 1 : Nat)) = true) ∧
  ∀ y : Nat, y < b.totalHeight → n ≤ y → b.get x y = false

instance (b : Board) (x n : Nat) : Decidable (colTopAboveN b x n) := by
  unfold colTopAboveN
  infer_instance

def cellsWf (b : Board) : Prop :=
  b.cells.length = b.width * b.totalHeight

instance (b : Board) : Decidable (cellsWf b) := by
  unfold cellsWf
  infer_instance

/-- The cached column heights are exactly the true column tops. -/
def cacheConsistent (b : Board) : Prop :=
  b.colHeights.length = b.width ∧
  ∀ x : Nat, x < b.width →
    0 ≤ b.colHeights.getD x 0 ∧ colTopAboveN b x (b.colHeights.getD x 0).toNat

instance (b : Board) : Decidable (cacheConsistent b) := by
  unfold cacheConsistent
  infer_instance

/-- A BFS node whose state does not collide. -/
def stateOK (b : Board) (piece : Piece) (s : BfsState) : Prop :=
  b.collides piece s.rotation s.x s.y = false

/-- `t` is on the soft-drop chain of `s`: same rotation and column, at or
below `s`, with every intermediate state collision free. -/
def inChain (b : Board) (piece : Piece) (s t : BfsState) : Prop :=
  t.rotation = s.rotation ∧ t.x = s.x ∧ t.y ≤ s.y ∧
  ∀ y' : Int, t.y ≤ y' → y' ≤ s.y → b.collides piece s.rotation s.x y' = false

/-- Shorthand for the encoded index of a node. -/
def enc (stride : Nat) (s : BfsState) : Int :=
  encodeState s.x s.y s.rotation stride

/-- Relation between the visited/queue pair before and after a batch of
guarded pushes. -/
def pushInv (stride size : Nat) (b : Board) (piece : Piece)
    (v0 : List Bool) (q0 : List BfsState) (v : List Bool) (q : List BfsState) : Prop :=
  v.length = size ∧
  q.length + v.count false = q0.length + v0.count false ∧
  (∀ u ∈ q, u ∈ q0 ∨ stateOK b piece u) ∧
  (∀ u ∈ q0, u ∈ q) ∧
  (∀ i : Nat, v0.getD i false = true → v.getD i false = true) ∧
  (∀ i : Nat, v.getD i false = true → v0.getD i false = true ∨
    ∃ u, u ∈ q ∧ stateOK b piece u ∧ (enc stride u).toNat = i)

/-! Canonical selection combinators, used to relate the three planners'
depth-1 behaviour (they are proved equal to the planners' folds, never
assumed). -/

/-- Fold step that feeds an optional projection into an accumulator step,
skipping `none`. -/
def optStep {α β γ : Type} (f : α → Option β) (step : γ → β → γ) (acc : γ) (a : α) : γ :=
  match f a with
  | none => acc
  | some b => step acc b

/-- Leaf score and first action of one reachable placement: the simulated
afterstate's evaluation together with the placement record, `none` when the
simulation rejects the placement. -/
def leafScoreOf (board : Board) (w : Weights) (vh : Option Int)
    (p : ReachablePlacement) : Option (ℚ × Placement) :=
  (simulatePlacement board p.piece p.rotation p.x p.y vh none).map fun sim =>
    (evaluate (toEvalFeatures (extractFeatures sim.board (sim.landingCells.map fun c => c.y)
        sim.linesCleared sim.pieceCellsInCleared)) w,
     ⟨p.piece, p.rotation, p.x, p.y, false⟩)

/-- First-seen-wins strict-improvement step over scored placements. -/
def selStep (acc : Option ℚ × Option Placement) (sp : ℚ × Placement) :
    Option ℚ × Option Placement :=
  if gtOpt sp.1 acc.1 then (some sp.1, some sp.2) else acc

/-- The canonical depth-1 selection: first-seen strict maximum by score. -/
def selectFirstMax (l : List (ℚ × Placement)) : Option Placement :=
  (l.foldl selStep (none, none)).2

/-- First-seen-wins strict maximum step over scored pairs. -/
def pairStep (best : Option (ℚ × Placement)) (sp : ℚ × Placement) : Option (ℚ × Placement) :=
  match best with
  | none => some sp
  | some b => if b.1 < sp.1 then some sp else best

/-- The afterstate `exCollect` appends for one reachable placement, as an
optional projection. -/
def fAft (board : Board) (w : Weights) (h : Nat) (p : ReachablePlacement) :
    Option AfterState :=
  (simulatePlacement board p.piece p.rotation p.x p.y (some (h : Int)) none).map fun sim =>
    ⟨⟨p.piece, p.rotation, p.x, p.y, false⟩, sim.board,
     evaluate (toEvalFeatures (extractFeatures sim.board (sim.landingCells.map fun c => c.y)
       sim.linesCleared sim.pieceCellsInCleared)) w,
     (extractFeatures sim.board (sim.landingCells.map fun c => c.y) sim.linesCleared
       sim.pieceCellsInCleared).holes,
     (toEvalFeatures (extractFeatures sim.board (sim.landingCells.map fun c => c.y)
       sim.linesCleared sim.pieceCellsInCleared)).maxHeight⟩

/-- The level-0 beam candidate `bcCollect` appends for one reachable
placement, as an optional projection. -/
def fBC (board : Board) (w : Weights) (h : Nat) (hpc : Option Piece)
    (p : ReachablePlacement) : Option BeamCandidate :=
  (simulatePlacement board p.piece p.rotation p.x p.y (some (h : Int)) none).map fun sim =>
    ⟨sim.board,
     evaluate (toEvalFeatures (extractFeatures sim.board (sim.landingCells.map fun c => c.y)
       sim.linesCleared sim.pieceCellsInCleared)) w,
     ⟨p.piece, p.rotation, p.x, p.y, false⟩, hpc, 0⟩

/-! Concrete fixtures used by counterexamples and witnesses. -/

/-- Empty 3-wide, 6-tall test board. -/
def bEmpty36 : Board := Board.new 3 6

/-- Test board with the single cell (0, 0) filled. -/
def bCell00 : Board := (Board.new 3 6).set 0 0 true

/-- Test weight vector rewarding eroded piece cells only. -/
def wEroded : Weights := ⟨[0, 1, 0, 0, 0, 0, 0, 0, 0, 0], rfl⟩

/-- Empty 2-wide, 4-tall test board (only the O piece spawns on a 2-wide
field without colliding). -/
def bEmpty24 : Board := Board.new 2 4

/-- Test weight vector penalising landing height only. -/
def wLanding : Weights := ⟨[-1, 0, 0, 0, 0, 0, 0, 0, 0, 0], rfl⟩

/-- Search context over the 2-wide board. -/
def ctx24 : SearchCtx := ⟨wLanding, 2, 2, (fun _ => 0), getSpawnPosition, false, none⟩

/-- Pre-seeded transposition memo giving the seven depth-1 MAX-node keys
of the O piece on `bEmpty24` distinct branch values. -/
def c3memo : Memo :=
  [((bEmpty24.hash, Piece.O.idx, Piece.I.idx, 1), 0),
   ((bEmpty24.hash, Piece.O.idx, Piece.O.idx, 1), 0),
   ((bEmpty24.hash, Piece.O.idx, Piece.T.idx, 1), 0),
   ((bEmpty24.hash, Piece.O.idx, Piece.S.idx, 1), 0),
   ((bEmpty24.hash, Piece.O.idx, Piece.Z.idx, 1), 0),
   ((bEmpty24.hash, Piece.O.idx, Piece.J.idx, 1), 0),
   ((bEmpty24.hash, Piece.O.idx, Piece.L.idx, 1), 7)]

/-- Snapshot of an O piece over the empty 3×6 board, hold disabled, empty
preview; every planner agrees a legal placement exists here. -/
def snapEmpty36 : GameSnapshot :=
  ⟨bEmpty36, 2, .srs, false, false, .O, none, false, false, [], 0, 0⟩

/-- 3×6 board with its two bottom rows completely filled: every placement
locks with all its cells at or above the visible height 2. -/
def bTwoRows : Board :=
  ((((((Board.new 3 6).set 0 0 true).set 1 0 true).set 2 0 true).set 0 1 true).set 1 1
    true).set 2 1 true

/-- Snapshot with hold available and a held T over the empty board: only
the hold branch can clear a line on a 3-wide field. -/
def snapHoldT : GameSnapshot :=
  ⟨bEmpty36, 2, .srs, false, false, .O, some .T, false, true, [], 0, 0⟩

/-- Snapshot over `bTwoRows` where every placement triggers the lock-out
check that only beam search and expectimax perform. -/
def snapLock : GameSnapshot :=
  ⟨bTwoRows, 2, .srs, false, false, .O, none, false, false, [], 0, 0⟩

/-! Theorems. -/

/-- C10: out-of-bounds coordinates at `Board.get` always read as empty —
the read is total and cannot error. -/
theorem board_get_oob_reads_empty (b : Board) (x y : Int)
    (h : x < 0 ∨ (b.width : Int) ≤ x ∨ y < 0 ∨ (b.totalHeight : Int) ≤ y) :
    b.get x y = false := by
  unfold Board.get
  exact if_pos h

/-- Witness for C10 at a concrete board and coordinate. -/
theorem board_get_oob_reads_empty_witness :
    ((-1 : Int) < 0 ∨ (bEmpty36.width : Int) ≤ -1 ∨ (2 : Int) < 0 ∨
      (bEmpty36.totalHeight : Int) ≤ 2) ∧ bEmpty36.get (-1) 2 = false :=
  ⟨Or.inl (by decide), board_get_oob_reads_empty bEmpty36 (-1) 2 (Or.inl (by decide))⟩

/-- C8 counterexample: the I piece is a third two-state toggler (R1 goes
back to R0, not on to R2), so the set of togglers has three members, not
two. -/
theorem nrs_three_togglers_counterexample :
    nrsTwoStateToggler .I = true ∧ nrsNextRotation .I 1 1 = some 0 ∧
    (ALL_PIECES.filter nrsTwoStateToggler).length ≠ 2 := by
  refine ⟨by decide, by decide, by decide⟩

/-- C8 (amended): under the no-kick system the O piece never rotates;
exactly three pieces (I, S, Z) toggle between two states; T, J and L cycle
through all four states; and a rotation succeeds exactly when the target
state is collision-free at the unchanged (x, y) — no offset is ever
tried. -/
theorem nrs_rotation_behaviour :
    (∀ (b : Board) (r : Rotation) (d x y : Int), tryRotateNRS b .O r d x y = none) ∧
    ALL_PIECES.filter nrsTwoStateToggler = [.I, .S, .Z] ∧
    (∀ r : Rotation, nrsNextRotation .T r 1 = some (r + 1) ∧
      nrsNextRotation .T r (-1) = some (r + 3) ∧
      nrsNextRotation .J r 1 = some (r + 1) ∧ nrsNextRotation .J r (-1) = some (r + 3) ∧
      nrsNextRotation .L r 1 = some (r + 1) ∧ nrsNextRotation .L r (-1) = some (r + 3)) ∧
    (∀ (b : Board) (p : Piece) (fromRot : Rotation) (d x y : Int) (t : Rotation),
      nrsNextRotation p fromRot d = some t → b.collides p t x y = true →
      tryRotateNRS b p fromRot d x y = none) ∧
    (∀ (b : Board) (p : Piece) (fromRot : Rotation) (d x y : Int) (t : Rotation),
      nrsNextRotation p fromRot d = some t → b.collides p t x y = false →
      tryRotateNRS b p fromRot d x y = some ⟨x, y, t⟩) := by
  refine ⟨?_, by decide, by decide, ?_, ?_⟩
  · intro b r d x y
    rfl
  · intro b p fromRot d x y t hnext hcoll
    unfold tryRotateNRS
    rw [hnext]
    simp [hcoll]
  · intro b p fromRot d x y t hnext hcoll
    unfold tryRotateNRS
    rw [hnext]
    simp [hcoll]

/-- Witness for C8 at a concrete blocked rotation: S at R1 over a filled
target cell fails outright. -/
theorem nrs_rotation_behaviour_witness :
    nrsNextRotation .S 2 1 = some 1 ∧ bCell00.collides .S 1 (-1) (-1) = true ∧
    tryRotateNRS bCell00 .S 2 1 (-1) (-1) = none :=
  ⟨by decide, by decide,
    nrs_rotation_behaviour.2.2.2.1 bCell00 .S 2 1 (-1) (-1) 1 (by decide) (by decide)⟩

/-- C1 counterexample: the weight tuple has ten entries while the
extractor's feature vector has eight fields — the lengths differ. -/
theorem weights_features_length_counterexample :
    BCTS_WEIGHTS.toList.length = 10 ∧
    (featureList (extractFeatures bEmpty36 [0] 0 0)).length = 8 ∧
    BCTS_WEIGHTS.toList.length ≠ (featureList (extractFeatures bEmpty36 [0] 0 0)).length := by
  refine ⟨rfl, rfl, by decide⟩

/-- C1 (amended): the first eight weight entries multiply the extractor's
eight output fields in the fixed order — the score is the dot product of
the weight prefix with the feature list plus the two evaluator-only terms
(bumpiness and maxHeight at indices 8 and 9). -/
theorem evaluate_aligns_with_feature_order
    (f : FeatureVector) (bp mh w0 w1 w2 w3 w4 w5 w6 w7 w8 w9 : ℚ) :
    evaluate ⟨f, bp, mh⟩ ⟨[w0, w1, w2, w3, w4, w5, w6, w7, w8, w9], rfl⟩ =
      (List.zipWith (fun wi fi => wi * fi)
        [w0, w1, w2, w3, w4, w5, w6, w7, w8, w9] (featureList f)).sum +
      w8 * bp + w9 * mh := by
  show w0 * f.landingHeight + w1 * f.erodedPieceCells + w2 * f.rowTransitions +
      w3 * f.colTransitions + w4 * f.holes + w5 * f.cumulativeWells + w6 * f.holeDepth +
      w7 * f.rowsWithHoles + w8 * bp + w9 * mh = _
  simp only [featureList, List.zipWith, List.sum_cons, List.sum_nil]
  ring

/-- The left-to-right flip scan equals the count of differing adjacent
pairs. -/
theorem transitionsFrom_eq_filter_length :
    ∀ (n : Nat) (g : Nat → Bool),
      transitionsFrom (g 0) ((List.range n).map fun i => g (i + 1)) =
        ((List.range n).filter fun i => g i ≠ g (i + 1)).length := by
  intro n
  induction n with
  | zero => intro g; rfl
  | succ m ih =>
    intro g
    rw [List.range_succ_eq_map]
    simp only [List.map_cons, List.map_map, List.filter_cons]
    have ih2 : transitionsFrom (g 1) ((List.range m).map fun i => g (i + 1 + 1)) =
        ((List.range m).filter fun i => decide (¬ g (i + 1) = g (i + 1 + 1))).length :=
      ih fun j => g (j + 1)
    have hcomp : ((fun i => g (i + 1)) ∘ Nat.succ) = fun i => g (i + 1 + 1) := by
      funext i
      simp [Function.comp, Nat.succ_eq_add_one]
    have lhs : transitionsFrom (g 0) (g 1 :: (List.range m).map ((fun i => g (i + 1)) ∘ Nat.succ)) =
        (if g 1 ≠ g 0 then 1 else 0) +
          transitionsFrom (g 1) ((List.range m).map ((fun i => g (i + 1)) ∘ Nat.succ)) := rfl
    rw [lhs, hcomp, ih2]
    have hfil : (List.filter (fun i => !decide (g i = g (i + 1)))
          (List.map Nat.succ (List.range m))).length =
        (List.filter (fun i => !decide (g (i + 1) = g (i + 1 + 1))) (List.range m)).length := by
      rw [List.filter_map, List.length_map]
      rfl
    by_cases h01 : g 0 = g 1
    · simp [h01, eq_comm]
      exact hfil
    · have h10 : ¬ g 1 = g 0 := fun h => h01 h.symm
      simp [h01, h10]
      omega

/-- Reading a mapped range list with a default hits the function value on
in-range indices. -/
theorem getD_map_range (f : Nat → Int) (n x : Nat) (d : Int) (h : x < n) :
    ((List.range n).map f).getD x d = f x := by
  rw [List.getD_eq_getElem?_getD]
  rw [List.getElem?_map]
  rw [List.getElem?_range h]
  rfl

/-- C4 counterexample: on the board with only cell (0, 0) filled the
extractor reports one row transition while the claimed walls-filled
convention yields two. -/
theorem row_transitions_walls_counterexample :
    (extractFeatures bCell00 [0] 0 0).rowTransitions = (1 : ℚ) ∧
    specRowTransitionsWallsFilled bCell00 = 2 ∧
    (extractFeatures bCell00 [0] 0 0).rowTransitions ≠
      (specRowTransitionsWallsFilled bCell00 : ℚ) := by
  refine ⟨by decide, by decide, by decide⟩

/-- Triangular-number well contribution: the guarded form used by the code
equals the clamped form used by the specification. -/
theorem wells_arith (v own : Int) :
    (if v - own > 0 then (v - own) * (v - own + 1) / 2 else 0) =
      (max 0 (v - own)) * (max 0 (v - own) + 1) / 2 := by
  by_cases hd : v - own > 0
  · rw [if_pos hd, max_eq_right (le_of_lt hd)]
  · rw [if_neg hd, max_eq_left (by omega)]
    decide

/-- C4 (amended): the extractor counts row transitions with OPEN side
walls (wall cells contribute no flips), and computes cumulative wells with
an edge column's missing neighbour behaving as an infinitely tall wall —
equivalently, an edge column's well depth is limited only by its single
inner neighbour. -/
theorem features_wall_conventions (b : Board) (cellYs : List Int) (lc pc : Nat)
    (hw : 2 ≤ b.width) :
    (extractFeatures b cellYs lc pc).rowTransitions = (specRowTransitionsOpen b : ℚ) ∧
    (extractFeatures b cellYs lc pc).cumulativeWells = (specCumulativeWells b : ℚ) := by
  constructor
  · simp only [extractFeatures, specRowTransitionsOpen]
    norm_cast
    refine congrArg List.sum (List.map_congr_left ?_)
    intro y _
    exact transitionsFrom_eq_filter_length (b.width - 1) (fun i => b.get i y)
  · simp only [extractFeatures, specCumulativeWells]
    norm_cast
    refine congrArg List.sum (List.map_congr_left ?_)
    intro x hx
    have hxw : x < b.width := List.mem_range.mp hx
    have hgetD : ∀ z, z < b.width →
        (((List.range b.width).map fun x => b.getColumnHeight x).getD z 0) =
          b.getColumnHeight z :=
      fun z hz => getD_map_range _ _ _ _ hz
    by_cases h0 : x = 0
    · subst h0
      have hne : ¬ ((0 : Nat) = b.width - 1) := by omega
      simp only [if_pos, reduceIte, if_neg hne, hgetD 1 (by omega), hgetD 0 (by omega)]
      exact wells_arith _ _
    · by_cases hlast : x = b.width - 1
      · subst hlast
        have e : b.width - 1 - 1 = b.width - 2 := by omega
        have hx2 : b.width - 2 < b.width := by omega
        simp only [if_neg h0, if_pos, reduceIte, e, hgetD (b.width - 2) hx2,
          hgetD (b.width - 1) hxw]
        exact wells_arith _ _
      · have hx1 : x - 1 < b.width := by omega
        have hx2 : x + 1 < b.width := by omega
        simp only [if_neg h0, if_neg hlast, hgetD (x - 1) hx1, hgetD (x + 1) hx2,
          hgetD x hxw]
        exact wells_arith _ _

/-- Witness for C4 (amended) on the single-cell board. -/
theorem features_wall_conventions_witness :
    2 ≤ bCell00.width ∧
    ((extractFeatures bCell00 [0] 0 0).rowTransitions = (specRowTransitionsOpen bCell00 : ℚ) ∧
     (extractFeatures bCell00 [0] 0 0).cumulativeWells = (specCumulativeWells bCell00 : ℚ)) :=
  ⟨by decide, features_wall_conventions bCell00 [0] 0 0 (by decide)⟩

/-- Inserting with the strict-before predicate permutes like consing. -/
theorem jsInsert_perm (before : α → α → Bool) (x : α) :
    ∀ l : List α, (jsInsert before x l).Perm (x :: l) := by
  intro l
  induction l with
  | nil => exact List.Perm.refl _
  | cons y ys ih =>
    unfold jsInsert
    by_cases h : before x y = true
    · rw [if_pos h]
    · rw [if_neg h]
      exact ((ih.cons y).trans (List.Perm.swap x y ys))

/-- The sort model permutes its input. -/
theorem jsSort_perm (before : α → α → Bool) :
    ∀ (l acc : List α),
      (l.foldl (fun acc x => jsInsert before x acc) acc).Perm (acc ++ l) := by
  intro l
  induction l with
  | nil => intro acc; simp
  | cons x xs ih =>
    intro acc
    refine (ih (jsInsert before x acc)).trans ?_
    refine ((jsInsert_perm before x acc).append_right xs).trans ?_
    exact List.perm_middle.symm

/-- Inserting with the ascending comparator preserves sortedness. -/
theorem jsInsert_sorted (x : ℚ) :
    ∀ l : List ℚ, l.Sorted (· ≤ ·) →
      (jsInsert (fun a b => decide (a < b)) x l).Sorted (· ≤ ·) := by
  intro l
  induction l with
  | nil => intro _; simp [jsInsert]
  | cons y ys ih =>
    intro hs
    rw [List.sorted_cons] at hs
    unfold jsInsert
    by_cases h : decide (x < y) = true
    · rw [if_pos h]
      have hxy : x < y := of_decide_eq_true h
      refine List.sorted_cons.mpr ⟨?_, List.sorted_cons.mpr hs⟩
      intro b hb
      rcases List.mem_cons.mp hb with hb | hb
      · exact le_of_lt (hb ▸ hxy)
      · exact le_of_lt (lt_of_lt_of_le hxy (hs.1 b hb))
    · rw [if_neg h]
      have hyx : y ≤ x := le_of_not_lt (fun hlt => h (decide_eq_true hlt))
      refine List.sorted_cons.mpr ⟨?_, ih hs.2⟩
      intro b hb
      have hmem := (jsInsert_perm (fun a b => decide (a < b)) x ys).mem_iff.mp hb
      rcases List.mem_cons.mp hmem with hb2 | hb2
      · exact hb2 ▸ hyx
      · exact hs.1 b hb2

/-- The ascending sort model agrees with insertion sort by ≤ (both are
sorted permutations, and sorted permutations over a total antisymmetric
order coincide). -/
theorem jsSortAsc_eq_insertionSort (values : List ℚ) :
    jsSort (fun a b => decide (a < b)) values = values.insertionSort (· ≤ ·) := by
  have hperm : (jsSort (fun a b => decide (a < b)) values).Perm values := by
    have h := jsSort_perm (fun a b => decide (a < b)) values []
    simpa [jsSort] using h
  have hsorted : (jsSort (fun a b => decide (a < b)) values).Sorted (· ≤ ·) := by
    unfold jsSort
    have hfold : ∀ (l acc : List ℚ), acc.Sorted (· ≤ ·) →
        (l.foldl (fun acc x => jsInsert (fun a b => decide (a < b)) x acc) acc).Sorted
          (· ≤ ·) := by
      intro l
      induction l with
      | nil => intro acc h; exact h
      | cons x xs ih => intro acc h; exact ih _ (jsInsert_sorted x acc h)
    exact hfold values [] (by simp)
  refine List.eq_of_perm_of_sorted ?_ hsorted (List.sorted_insertionSort _ values)
  exact hperm.trans (List.perm_insertionSort _ values).symm

/-- The fractional boundary term of the floor-based CVaR never goes
negative. -/
theorem cvar_frac_nonneg (k : ℚ) (hk : 0 ≤ k) : (0 : ℚ) ≤ k - k.floor.toNat := by
  have h1 : (0 : ℤ) ≤ k.floor := by
    show (0 : ℤ) ≤ ⌊k⌋
    exact Int.floor_nonneg.mpr hk
  have h2 : ((k.floor.toNat : ℤ) : ℚ) = (k.floor : ℚ) := by
    rw [Int.toNat_of_nonneg h1]
  have h3 : (k.floor : ℚ) ≤ k := by
    show ((⌊k⌋ : ℤ) : ℚ) ≤ k
    exact Int.floor_le k
  push_cast at h2 ⊢
  rw [sub_nonneg]
  calc ((k.floor.toNat : ℚ)) = (k.floor : ℚ) := h2
  _ ≤ k := h3

/-- The aggregation inlined in `chanceNode` is exactly the specification's
CVaR formula. -/
theorem cvarOf_eq_cvarSpec (values : List ℚ) :
    cvarOf values = cvarSpec CVAR_ALPHA values := by
  unfold cvarOf cvarSpec
  dsimp only
  rw [jsSortAsc_eq_insertionSort]
  have hlen : (values.insertionSort (· ≤ ·)).length = values.length :=
    (List.perm_insertionSort _ values).length_eq
  have hk0 : (0 : ℚ) ≤ CVAR_ALPHA * values.length := by
    have hα : (0 : ℚ) ≤ CVAR_ALPHA := by rw [CVAR_ALPHA]; norm_num
    positivity
  set sorted := values.insertionSort (· ≤ ·)
  set k : ℚ := CVAR_ALPHA * values.length with hkdef
  set m : Nat := k.floor.toNat with hmdef
  by_cases hc : 0 < k - (m : ℚ) ∧ m < values.length
  · rw [if_pos hc]
  · rw [if_neg hc]
    rcases Decidable.not_and_iff_or_not.mp hc with h | h
    · have hfrac0 : k - (m : ℚ) = 0 :=
        le_antisymm (le_of_not_lt h) (cvar_frac_nonneg k hk0)
      rw [hfrac0]
      ring_nf
    · have hge : values.length ≤ m := le_of_not_lt h
      have hd : sorted.getD m 0 = 0 := List.getD_eq_default _ _ (hlen ▸ hge)
      rw [hd]
      ring_nf

/-- C3 (amended): every chance node aggregates its seven branch values by
the specification's CVaR formula at the fixed, hard-coded tail fraction
α = 0.30; α is a module constant, not a planner-configuration field, and
no uniform-mean aggregation path exists. -/
theorem chance_node_is_cvar (ctx : SearchCtx) (depth : Nat) (board : Board)
    (currentPiece : Piece) (memo : Memo) :
    (chanceNode ctx depth board currentPiece memo).1 =
      cvarSpec CVAR_ALPHA
        ((chanceBranchValues ctx (chanceNodeRec ctx depth) depth board currentPiece memo).1) ∧
    CVAR_ALPHA = 30 / 100 := by
  constructor
  · have hstep : chanceNode ctx depth = chanceStep ctx (chanceNodeRec ctx depth) depth := by
      cases depth with
      | zero => rfl
      | succ d => rfl
    rw [hstep]
    unfold chanceStep
    rcases h : chanceBranchValues ctx (chanceNodeRec ctx depth) depth board currentPiece memo
      with ⟨vals, m2⟩
    exact cvarOf_eq_cvarSpec vals
  · rfl

/-- C3 counterexample: with branch values (0,0,0,0,0,0,7) the chance node
returns their CVaR 0, not their uniform mean 1 — no mean aggregation is
available and the planner configuration carries no α field. -/
theorem chance_no_uniform_mean_counterexample :
    (chanceBranchValues ctx24 (chanceNodeRec ctx24 1) 1 bEmpty24 .O c3memo).1 =
      [0, 0, 0, 0, 0, 0, 7] ∧
    (chanceNode ctx24 1 bEmpty24 .O c3memo).1 = 0 ∧
    (chanceNode ctx24 1 bEmpty24 .O c3memo).1 ≠
      ([0, 0, 0, 0, 0, 0, (7 : ℚ)].sum) / 7 := by
  refine ⟨by decide, by decide, by decide⟩


set_option maxRecDepth 200000 in
set_option maxHeartbeats 4000000 in
/-- C7 counterexample: a non-positive beam width is not normalized to a
valid width — with `beamWidth = 0` the first pruning empties the beam and
beam search answers `none` on the empty board, although the greedy planner
(and hence a legal placement) exists for the same snapshot. -/
theorem beam_width_zero_counterexample :
    beamSearchSelect snapEmpty36 wEroded ⟨1, 0⟩ = none ∧
    greedySelect snapEmpty36 wEroded ≠ none := by
  constructor
  · decide
  · decide

/-- Pruning to width 0 empties any non-empty beam: `slice(0, 0)`. -/
theorem pruneBeam_zero (cs : List BeamCandidate) (h : cs ≠ []) : pruneBeam cs 0 = [] := by
  have hlen : ¬ ((cs.length : Int) ≤ 0) := by
    rcases cs with _ | ⟨c, cs⟩
    · exact absurd rfl h
    · simp only [List.length_cons]
      push_cast
      omega
  unfold pruneBeam
  rw [if_neg hlen]
  unfold jsSliceTo
  dsimp only
  rw [if_neg (by omega : ¬ (0 : Int) < 0)]
  have hmin : (min (0 : Int)
      ((jsSort (fun a b => decide (b.score < a.score)) cs).length : Int)).toNat = 0 := by
    omega
  rw [hmin]
  rfl

/-- The deeper-level loop keeps an empty beam empty (the `break` fires at
once). -/
theorem beamLoop_nil (snapshot : GameSnapshot) (w : Weights) (bw : Int)
    (height width : Nat) (srFn : Piece → Rotation) (spFn : Piece → Nat → Nat → Vec2)
    (idrop : Bool) (tr : Option Int) :
    ∀ n : Nat, beamLoop snapshot w bw height width srFn spFn idrop tr n [] = [] := by
  intro n
  cases n <;> rfl

/-- The tail of `beamSearchSelect` with beam width 0 answers none for
every level-0 candidate list. -/
theorem beam_zero_aux (snapshot : GameSnapshot) (w : Weights) (height width : Nat)
    (srFn : Piece → Rotation) (spFn : Piece → Nat → Nat → Vec2) (idrop : Bool)
    (tr : Option Int) (lv : Nat) (C : List BeamCandidate) :
    (if C = [] then none
     else ((beamLoop snapshot w 0 height width srFn spFn idrop tr lv
         (pruneBeam C 0)).foldl bcMaxStep none).map (fun c => c.firstAction)) = none := by
  by_cases hc : C = []
  · rw [if_pos hc]
  · rw [if_neg hc, pruneBeam_zero C hc, beamLoop_nil]
    rfl

/-- C7 (amended): a non-positive search depth is silently normalized —
beam search runs its level-0 expansion only, exactly as with depth 1, and
expectimax takes its depth-≤-1 leaf branch, exactly as with depth 1, for
every snapshot and weight vector — while a zero beam width is NOT lifted
to a valid width: with `beamWidth = 0` the first pruning empties the beam
and beam search returns none for every snapshot, weights and depth. -/
theorem nonpositive_depth_normalizes (S : GameSnapshot) (w : Weights) (d bw d2 : Int)
    (hd : d ≤ 0) :
    beamSearchSelect S w ⟨d, bw⟩ = beamSearchSelect S w ⟨1, bw⟩ ∧
    expectimaxSelect S w ⟨d⟩ = expectimaxSelect S w ⟨1⟩ ∧
    beamSearchSelect S w ⟨d2, 0⟩ = none := by
  refine ⟨?_, ?_, ?_⟩
  · unfold beamSearchSelect
    dsimp only
    rw [show (min d ((S.preview.length : Int) + 1) - 1).toNat = 0 by omega,
        show (min 1 ((S.preview.length : Int) + 1) - 1).toNat = 0 by omega]
  · unfold expectimaxSelect
    dsimp only
    refine if_congr Iff.rfl rfl ?_
    refine if_congr Iff.rfl rfl ?_
    refine if_congr Iff.rfl rfl ?_
    rw [if_pos (Or.inl (le_trans hd (by norm_num))),
        if_pos (Or.inl (le_refl (1 : Int)))]
  · unfold beamSearchSelect
    dsimp only
    exact beam_zero_aux S w S.height S.board.width (fun _ => 0) getSpawnPosition
      S.initialDrop _ _ _

/-- Witness for C7 (amended) at depth -3 (and width-0 depth 5) over the
empty-board snapshot. -/
theorem nonpositive_depth_normalizes_witness :
    (-3 : Int) ≤ 0 ∧
    (beamSearchSelect snapEmpty36 wEroded ⟨-3, 2⟩ = beamSearchSelect snapEmpty36 wEroded ⟨1, 2⟩ ∧
     expectimaxSelect snapEmpty36 wEroded ⟨-3⟩ = expectimaxSelect snapEmpty36 wEroded ⟨1⟩ ∧
     beamSearchSelect snapEmpty36 wEroded ⟨5, 0⟩ = none) :=
  ⟨by decide, nonpositive_depth_normalizes snapEmpty36 wEroded (-3) 2 5 (by decide)⟩

/-- A simulation that survives the lock-out check at some visible height
returns the same result when no visible height is supplied: the two calls
differ only in the lock-out gate. -/
theorem simulatePlacement_vh (board : Board) (p : Piece) (rot : Rotation) (x y h : Int)
    (hne : simulatePlacement board p rot x y (some h) none ≠ none) :
    simulatePlacement board p rot x y none none =
      simulatePlacement board p rot x y (some h) none := by
  unfold simulatePlacement at hne ⊢
  dsimp only at hne ⊢
  cases hc : board.clone.collides p rot x y with
  | true => simp only [hc, if_true] at hne ⊢
  | false =>
    simp only [hc, Bool.false_eq_true, if_false] at hne ⊢
    generalize hpp : board.clone.placePiece p rot x y none = pr at hne ⊢
    rcases pr with ⟨b2, cells⟩
    dsimp only at hne ⊢
    by_cases hcells : cells = []
    · simp only [if_pos hcells]
    · simp only [if_neg hcells] at hne ⊢
      by_cases hlo : (cells.all fun cell => decide (h ≤ cell.y)) = true
      · simp only [if_pos hlo] at hne
        exact absurd rfl hne
      · simp only [if_neg hlo]

/-- Folding an optional-projection step is folding over the projected
sublist. -/
theorem foldl_opt_filterMap {α β γ : Type} (f : α → Option β) (step : γ → β → γ) :
    ∀ (l : List α) (init : γ),
      l.foldl (optStep f step) init =
      (l.filterMap f).foldl step init := by
  intro l
  induction l with
  | nil => intro init; rfl
  | cons a l ih =>
    intro init
    cases hfa : f a <;> simp [optStep, List.filterMap_cons, hfa, ih]

/-- Collecting optional projections by appending is the projected
sublist. -/
theorem foldl_append_filterMap {α β : Type} (f : α → Option β) :
    ∀ (l : List α) (init : List β),
      l.foldl (optStep f (fun acc b => acc ++ [b])) init =
      init ++ l.filterMap f := by
  intro l
  induction l with
  | nil => intro init; simp
  | cons a l ih =>
    intro init
    cases hfa : f a <;> simp [optStep, List.filterMap_cons, hfa, ih]

/-- The first-seen strict-maximum pair fold agrees with the canonical
score/placement selection fold. -/
theorem pairFold_eq_sel :
    ∀ (l : List (ℚ × Placement)) (o : Option (ℚ × Placement)),
      (l.foldl pairStep o).map (fun sp => sp.2) =
      (l.foldl selStep (o.map (fun sp => sp.1), o.map (fun sp => sp.2))).2 := by
  intro l
  induction l with
  | nil => intro o; cases o <;> rfl
  | cons sp l ih =>
    intro o
    cases o with
    | none =>
      have := ih (some sp)
      simpa [pairStep, selStep, gtOpt] using this
    | some b =>
      by_cases hlt : b.1 < sp.1
      · have := ih (some sp)
        simpa [pairStep, selStep, gtOpt, hlt] using this
      · have := ih (some b)
        simpa [pairStep, selStep, gtOpt, hlt] using this

/-- The head of the stable descending sort is the first-seen strict
maximum of the input order. -/
theorem jsSort_head_eq_foldMax :
    ∀ (l acc : List BeamCandidate),
      (∀ b, acc.head? = some b → ∀ c ∈ acc, ¬ (b.score < c.score)) →
      (l.foldl (fun a x => jsInsert (fun a b => decide (b.score < a.score)) x a) acc).head? =
        l.foldl bcMaxStep acc.head? := by
  intro l
  induction l with
  | nil => intro acc _; rfl
  | cons x xs ih =>
    intro acc hinv
    simp only [List.foldl_cons]
    cases acc with
    | nil =>
      refine (ih [x] ?_).trans ?_
      · intro b hb c hc
        simp only [List.head?_cons] at hb
        obtain rfl : x = b := Option.some.inj hb
        simp only [List.mem_singleton] at hc
        subst hc
        exact lt_irrefl _
      · rfl
    | cons h t =>
      by_cases hlt : h.score < x.score
      · have hins : jsInsert (fun a b => decide (b.score < a.score)) x (h :: t) =
            x :: h :: t := by
          simp only [jsInsert]
          rw [if_pos (by simpa using hlt)]
        rw [hins]
        refine (ih (x :: h :: t) ?_).trans ?_
        · intro b hb c hc
          simp only [List.head?_cons] at hb
          obtain rfl : x = b := Option.some.inj hb
          rcases List.mem_cons.mp hc with rfl | hc2
          · exact lt_irrefl _
          · have hc3 := hinv h rfl c hc2
            intro hx
            exact hc3 (lt_trans hlt hx)
        · have hstep : bcMaxStep ((h :: t).head?) x = some x := by
            simp [bcMaxStep, hlt]
          rw [hstep]
          rfl
      · have hins : jsInsert (fun a b => decide (b.score < a.score)) x (h :: t) =
            h :: jsInsert (fun a b => decide (b.score < a.score)) x t := by
          simp only [jsInsert]
          rw [if_neg (by simpa using hlt)]
        rw [hins]
        refine (ih (h :: jsInsert (fun a b => decide (b.score < a.score)) x t) ?_).trans ?_
        · intro b hb c hc
          simp only [List.head?_cons] at hb
          obtain rfl : h = b := Option.some.inj hb
          rcases List.mem_cons.mp hc with rfl | hc2
          · exact lt_irrefl _
          · have hmem : c ∈ x :: t :=
              (jsInsert_perm (fun a b => decide (b.score < a.score)) x t).mem_iff.mp hc2
            rcases List.mem_cons.mp hmem with rfl | hc3
            · exact hlt
            · exact hinv h rfl c (List.mem_cons_of_mem h hc3)
        · have hstep : bcMaxStep ((h :: t).head?) x = some h := by
            simp [bcMaxStep, hlt]
          rw [hstep]
          rfl

/-- The afterstate maximum fold projects to the pair maximum fold. -/
theorem aftFold_eq_pairFold :
    ∀ (l : List AfterState) (o : Option AfterState),
      (l.foldl aftMaxStep o).map (fun c => c.placement) =
      ((l.map fun c => (c.leafScore, c.placement)).foldl pairStep
        (o.map fun c => (c.leafScore, c.placement))).map (fun sp => sp.2) := by
  intro l
  induction l with
  | nil => intro o; cases o <;> rfl
  | cons c l ih =>
    intro o
    simp only [List.map_cons, List.foldl_cons]
    cases o with
    | none =>
      have := ih (some c)
      simpa [aftMaxStep, pairStep] using this
    | some b =>
      by_cases hlt : b.leafScore < c.leafScore
      · have := ih (some c)
        simpa [aftMaxStep, pairStep, hlt] using this
      · have := ih (some b)
        simpa [aftMaxStep, pairStep, hlt] using this

/-- The beam-candidate maximum fold projects to the pair maximum fold. -/
theorem bcFold_eq_pairFold :
    ∀ (l : List BeamCandidate) (o : Option BeamCandidate),
      (l.foldl bcMaxStep o).map (fun c => c.firstAction) =
      ((l.map fun c => (c.score, c.firstAction)).foldl pairStep
        (o.map fun c => (c.score, c.firstAction))).map (fun sp => sp.2) := by
  intro l
  induction l with
  | nil => intro o; cases o <;> rfl
  | cons c l ih =>
    intro o
    simp only [List.map_cons, List.foldl_cons]
    cases o with
    | none =>
      have := ih (some c)
      simpa [bcMaxStep, pairStep] using this
    | some b =>
      by_cases hlt : b.score < c.score
      · have := ih (some c)
        simpa [bcMaxStep, pairStep, hlt] using this
      · have := ih (some b)
        simpa [bcMaxStep, pairStep, hlt] using this

/-- Pruning to width 1 and then taking the best survivor selects the same
candidate as the plain first-seen maximum fold. -/
theorem pruneBeam_one_foldMax (cs : List BeamCandidate) (hne : cs ≠ []) :
    ((pruneBeam cs 1).foldl bcMaxStep none).map (fun c => c.firstAction) =
      (cs.foldl bcMaxStep none).map (fun c => c.firstAction) := by
  unfold pruneBeam
  by_cases hlen : (cs.length : Int) ≤ 1
  · rw [if_pos hlen]
  · rw [if_neg hlen]
    have hperm : (jsSort (fun a b => decide (b.score < a.score)) cs).Perm cs := by
      simpa using jsSort_perm (fun a b => decide (b.score < a.score)) cs []
    have hh0 : (jsSort (fun a b => decide (b.score < a.score)) cs).head? =
        cs.foldl bcMaxStep none := by
      have := jsSort_head_eq_foldMax cs []
        (by intro b hb c hc; cases hc)
      simpa [jsSort] using this
    rcases hsor : jsSort (fun a b => decide (b.score < a.score)) cs with _ | ⟨h0, t0⟩
    · exfalso
      have hcs : cs.Perm ([] : List BeamCandidate) := (hsor ▸ hperm).symm
      exact hne (List.Perm.eq_nil hcs)
    · rw [hsor] at hh0 ⊢
      simp only [List.head?_cons] at hh0
      have hslice : jsSliceTo (h0 :: t0) (1 : Int) = [h0] := by
        unfold jsSliceTo
        simp
      rw [hslice]
      simp only [List.foldl_cons, List.foldl_nil]
      rw [← hh0]
      rfl

/-- The greedy loop body is the optional-projection step of the canonical
selection. -/
theorem greedyStep_eq (board : Board) (w : Weights) :
    greedyStep board w false = optStep (leafScoreOf board w none) selStep := by
  funext acc p
  rcases acc with ⟨bs, bp⟩
  unfold greedyStep leafScoreOf selStep optStep
  cases hsim : simulatePlacement board p.piece p.rotation p.x p.y none none with
  | none => simp [hsim]
  | some sim => simp [hsim]

/-- With hold disabled the greedy planner is the canonical first-seen
maximum over the leaf scores of the reachable placements (simulated with
no visible height). -/
theorem greedy_canonical (board : Board) (w : Weights) (cur : Piece) (hpc : Option Piece)
    (hused : Bool) (prev : List Piece) (lc pp : Nat) (h0 : Nat) (rs : RotSys)
    (idrop tlock : Bool) :
    greedySelect ⟨board, h0, rs, idrop, tlock, cur, hpc, hused, false, prev, lc, pp⟩ w =
      selectFirstMax
        ((generatePlacements board cur
            (getSpawnPosition cur board.width (board.totalHeight - 4)).x
            (getSpawnPosition cur board.width (board.totalHeight - 4)).y).filterMap
          (leafScoreOf board w none)) := by
  unfold greedySelect
  dsimp only
  rw [if_neg (by simp : ¬ ((false : Bool) = true ∧ hused = false))]
  rw [greedyStep_eq]
  rw [foldl_opt_filterMap (leafScoreOf board w none) selStep]
  rfl

/-- The expectimax candidate collector is the optional-projection step of
its afterstate projection. -/
theorem exCollect_eq_optStep (board : Board) (w : Weights) (h : Nat) :
    exCollect board w h none = optStep (fAft board w h) (fun acc a => acc ++ [a]) := by
  funext acc p
  unfold exCollect fAft optStep
  cases hsim : simulatePlacement board p.piece p.rotation p.x p.y (some (h : Int)) none with
  | none => simp [hsim]
  | some sim => simp [hsim]

/-- The level-0 beam candidate collector is the optional-projection step
of its candidate projection. -/
theorem bcCollect_eq_optStep (board : Board) (w : Weights) (h : Nat) (hpc : Option Piece) :
    bcCollect board w h none none hpc 0 false =
      optStep (fBC board w h hpc) (fun acc a => acc ++ [a]) := by
  funext acc p
  unfold bcCollect fBC optStep
  cases hsim : simulatePlacement board p.piece p.rotation p.x p.y (some (h : Int)) none with
  | none => simp [hsim]
  | some sim => simp [hsim]

/-- Projecting collected afterstates to score/action pairs gives the leaf
scores. -/
theorem fAft_pairize (board : Board) (w : Weights) (h : Nat) (ps : List ReachablePlacement) :
    (ps.filterMap (fAft board w h)).map (fun c => (c.leafScore, c.placement)) =
      ps.filterMap (leafScoreOf board w (some (h : Int))) := by
  rw [List.map_filterMap]
  refine List.filterMap_congr ?_
  intro p _
  unfold fAft leafScoreOf
  cases hsim : simulatePlacement board p.piece p.rotation p.x p.y (some (h : Int)) none with
  | none => simp [hsim]
  | some sim => simp [hsim]

/-- Projecting collected level-0 beam candidates to score/action pairs
gives the leaf scores. -/
theorem fBC_pairize (board : Board) (w : Weights) (h : Nat) (hpc : Option Piece)
    (ps : List ReachablePlacement) :
    (ps.filterMap (fBC board w h hpc)).map (fun c => (c.score, c.firstAction)) =
      ps.filterMap (leafScoreOf board w (some (h : Int))) := by
  rw [List.map_filterMap]
  refine List.filterMap_congr ?_
  intro p _
  unfold fBC leafScoreOf
  cases hsim : simulatePlacement board p.piece p.rotation p.x p.y (some (h : Int)) none with
  | none => simp [hsim]
  | some sim => simp [hsim]

/-- The expectimax leaf selection equals the canonical selection of the
projected scores. -/
theorem aftFold_none (l : List AfterState) :
    (l.foldl aftMaxStep none).map (fun c => c.placement) =
      selectFirstMax (l.map fun c => (c.leafScore, c.placement)) := by
  have h1 := aftFold_eq_pairFold l none
  have h2 := pairFold_eq_sel (l.map fun c => (c.leafScore, c.placement)) none
  unfold selectFirstMax
  simpa using h1.trans h2

/-- The beam final selection equals the canonical selection of the
projected scores. -/
theorem bcFold_none (l : List BeamCandidate) :
    (l.foldl bcMaxStep none).map (fun c => c.firstAction) =
      selectFirstMax (l.map fun c => (c.score, c.firstAction)) := by
  have h1 := bcFold_eq_pairFold l none
  have h2 := pairFold_eq_sel (l.map fun c => (c.score, c.firstAction)) none
  unfold selectFirstMax
  simpa using h1.trans h2

/-- With depth 1 the expectimax planner is the canonical first-seen
maximum over the leaf scores of the reachable placements, simulated at
visible height `h0` (it has no hold branch). -/
theorem expectimax_canonical (board : Board) (w : Weights) (cur : Piece) (hpc : Option Piece)
    (hused ah : Bool) (prev : List Piece) (lc pp h0 : Nat) :
    expectimaxSelect ⟨board, h0, .srs, false, false, cur, hpc, hused, ah, prev, lc, pp⟩ w ⟨1⟩ =
      selectFirstMax ((generatePlacements board cur
          (getSpawnPosition cur board.width h0).x
          (getSpawnPosition cur board.width h0).y).filterMap
        (leafScoreOf board w (some (h0 : Int)))) := by
  unfold expectimaxSelect
  dsimp only
  by_cases hc : board.collides cur 0 (getSpawnPosition cur board.width h0).x
      (getSpawnPosition cur board.width h0).y = true
  · rw [if_pos hc]
    have hps : generatePlacements board cur (getSpawnPosition cur board.width h0).x
        (getSpawnPosition cur board.width h0).y = [] := by
      unfold generatePlacements
      rw [if_pos hc]
    rw [hps]
    rfl
  · rw [if_neg hc]
    rw [if_neg (by simp : ¬ ((false : Bool) = true ∧ board.collides cur 0
      (getSpawnPosition cur board.width h0).x
      ((getSpawnPosition cur board.width h0).y - 1) = false))]
    rw [show (if (false : Bool) = true then some ((h0 : Int)) else none) = (none : Option Int)
      from rfl]
    generalize hgen : generatePlacements board cur (getSpawnPosition cur board.width h0).x
      (getSpawnPosition cur board.width h0).y = ps
    by_cases hps0 : ps = []
    · subst hps0
      rw [if_pos rfl]
      rfl
    · rw [if_neg hps0]
      rw [exCollect_eq_optStep, foldl_append_filterMap (fAft board w h0)]
      simp only [List.nil_append]
      by_cases hcand : ps.filterMap (fAft board w h0) = []
      · rw [if_pos hcand]
        have : ps.filterMap (leafScoreOf board w (some (h0 : Int))) = [] := by
          rw [← fAft_pairize, hcand]
          rfl
        rw [this]
        rfl
      · rw [if_neg hcand]
        rw [if_pos (Or.inl (le_refl (1 : Int)))]
        rw [aftFold_none, fAft_pairize]

/-- With depth 1, beam width 1 and hold disabled, beam search is the
canonical first-seen maximum over the leaf scores of the reachable
placements, simulated at visible height `h0`. -/
theorem beam_canonical (board : Board) (w : Weights) (cur : Piece) (hpc : Option Piece)
    (hused : Bool) (prev : List Piece) (lc pp h0 : Nat) :
    beamSearchSelect ⟨board, h0, .srs, false, false, cur, hpc, hused, false, prev, lc, pp⟩
        w ⟨1, 1⟩ =
      selectFirstMax ((generatePlacements board cur
          (getSpawnPosition cur board.width h0).x
          (getSpawnPosition cur board.width h0).y).filterMap
        (leafScoreOf board w (some (h0 : Int)))) := by
  unfold beamSearchSelect
  dsimp only
  rw [show (if (false : Bool) = true then some ((h0 : Int)) else none) = (none : Option Int)
    from rfl]
  unfold expandPiece
  dsimp only
  rw [if_neg (by simp : ¬ ((false : Bool) = true ∧ hused = false))]
  by_cases hc : board.collides cur 0 (getSpawnPosition cur board.width h0).x
      (getSpawnPosition cur board.width h0).y = true
  · rw [if_pos hc]
    rw [if_pos rfl]
    have hps : generatePlacements board cur (getSpawnPosition cur board.width h0).x
        (getSpawnPosition cur board.width h0).y = [] := by
      unfold generatePlacements
      rw [if_pos hc]
    rw [hps]
    rfl
  · rw [if_neg hc]
    rw [if_neg (by simp : ¬ ((false : Bool) = true ∧ board.collides cur 0
      (getSpawnPosition cur board.width h0).x
      ((getSpawnPosition cur board.width h0).y - 1) = false))]
    rw [bcCollect_eq_optStep, foldl_append_filterMap (fBC board w h0 hpc)]
    simp only [List.nil_append]
    generalize hgen : (generatePlacements board cur (getSpawnPosition cur board.width h0).x
      (getSpawnPosition cur board.width h0).y).filterMap (fBC board w h0 hpc) = cs
    by_cases hcand : cs = []
    · subst hcand
      rw [if_pos rfl]
      have : (generatePlacements board cur (getSpawnPosition cur board.width h0).x
          (getSpawnPosition cur board.width h0).y).filterMap
          (leafScoreOf board w (some (h0 : Int))) = [] := by
        rw [← fBC_pairize board w h0 hpc, hgen]
        rfl
      rw [this]
      rfl
    · rw [if_neg hcand]
      rw [show (min (1 : Int) ((prev.length : Int) + 1) - 1).toNat = 0 by omega]
      show ((pruneBeam cs 1).foldl bcMaxStep none).map (fun c => c.firstAction) = _
      rw [pruneBeam_one_foldMax cs hcand]
      rw [bcFold_none]
      rw [← hgen, fBC_pairize]

set_option maxRecDepth 200000 in
set_option maxHeartbeats 8000000 in
/-- C2 counterexample: with a held piece available the greedy planner's
hold branch diverges from expectimax (which has no hold branch), and on a
board where every placement locks out above the visible height, beam
search's lock-out check (absent from greedy) makes beam with depth 1 and
width 1 diverge from greedy. -/
theorem depth_one_planners_counterexample :
    expectimaxSelect snapHoldT wEroded ⟨1⟩ ≠ greedySelect snapHoldT wEroded ∧
    beamSearchSelect snapLock wEroded ⟨1, 1⟩ ≠ greedySelect snapLock wEroded := by
  refine ⟨by decide, by decide⟩

/-- C2 (amended): on identical inputs the three planners agree at depth 1
(and beam width 1) provided the snapshot is aligned — SRS, visible height
= totalHeight - 4, no initial drop, no lock truncation, hold disabled —
and no reachable placement of the current piece is rejected by the
lock-out check that only beam search and expectimax perform. -/
theorem depth_one_planners_agree (S : GameSnapshot) (w : Weights)
    (hrs : S.rotationSystem = .srs)
    (hh : S.height = S.board.totalHeight - 4)
    (hi : S.initialDrop = false)
    (ht : S.truncateLock = false)
    (hah : S.allowHold = false)
    (hsim : ∀ p ∈ generatePlacements S.board S.currentPiece
        (getSpawnPosition S.currentPiece S.board.width S.height).x
        (getSpawnPosition S.currentPiece S.board.width S.height).y,
      simulatePlacement S.board p.piece p.rotation p.x p.y (some (S.height : Int)) none ≠
        none) :
    expectimaxSelect S w ⟨1⟩ = greedySelect S w ∧
    beamSearchSelect S w ⟨1, 1⟩ = greedySelect S w := by
  obtain ⟨board, height, rs, idrop, tlock, cur, hpc, hused, ahold, prev, lc, pp⟩ := S
  dsimp only at hrs hh hi ht hah hsim ⊢
  subst hrs hh hi ht hah
  have hLeaf : (generatePlacements board cur
      (getSpawnPosition cur board.width (board.totalHeight - 4)).x
      (getSpawnPosition cur board.width (board.totalHeight - 4)).y).filterMap
        (leafScoreOf board w (some ((board.totalHeight - 4 : Nat) : Int))) =
      (generatePlacements board cur
      (getSpawnPosition cur board.width (board.totalHeight - 4)).x
      (getSpawnPosition cur board.width (board.totalHeight - 4)).y).filterMap
        (leafScoreOf board w none) := by
    refine List.filterMap_congr ?_
    intro p hp
    unfold leafScoreOf
    rw [simulatePlacement_vh board p.piece p.rotation p.x p.y _ (hsim p hp)]
  rw [greedy_canonical, expectimax_canonical, beam_canonical, hLeaf]
  exact ⟨rfl, rfl⟩

set_option maxRecDepth 200000 in
set_option maxHeartbeats 8000000 in
/-- Witness for C2 (amended) on the aligned empty-board snapshot, where no
placement of the O piece triggers the lock-out check. -/
theorem depth_one_planners_agree_witness :
    (snapEmpty36.rotationSystem = .srs ∧
     snapEmpty36.height = snapEmpty36.board.totalHeight - 4 ∧
     snapEmpty36.initialDrop = false ∧
     snapEmpty36.truncateLock = false ∧
     snapEmpty36.allowHold = false ∧
     (∀ p ∈ generatePlacements snapEmpty36.board snapEmpty36.currentPiece
         (getSpawnPosition snapEmpty36.currentPiece snapEmpty36.board.width
           snapEmpty36.height).x
         (getSpawnPosition snapEmpty36.currentPiece snapEmpty36.board.width
           snapEmpty36.height).y,
       simulatePlacement snapEmpty36.board p.piece p.rotation p.x p.y
         (some (snapEmpty36.height : Int)) none ≠ none)) ∧
    (expectimaxSelect snapEmpty36 wEroded ⟨1⟩ = greedySelect snapEmpty36 wEroded ∧
     beamSearchSelect snapEmpty36 wEroded ⟨1, 1⟩ = greedySelect snapEmpty36 wEroded) :=
  ⟨⟨rfl, by decide, rfl, rfl, rfl, by decide⟩,
   depth_one_planners_agree snapEmpty36 wEroded rfl (by decide) rfl rfl rfl (by decide)⟩

theorem getD_set_self {α : Type} (l : List α) (i : Nat) (a d : α) (h : i < l.length) :
    (l.set i a).getD i d = a := by
  rw [List.getD_eq_getElem?_getD, List.getElem?_set_self h]
  rfl

theorem getD_set_ne {α : Type} (l : List α) {i j : Nat} (a d : α) (h : i ≠ j) :
    (l.set i a).getD j d = l.getD j d := by
  rw [List.getD_eq_getElem?_getD, List.getElem?_set_ne h, ← List.getD_eq_getElem?_getD]

theorem getD_replicate_lt {α : Type} (n : Nat) (a d : α) {m : Nat} (h : m < n) :
    (List.replicate n a).getD m d = a := by
  rw [List.getD_eq_getElem?_getD, List.getElem?_replicate, if_pos h]
  rfl

/-- Flat cell indices are injective over in-range columns. -/
theorem flatIdx_inj {w x x' y y' : Nat} (hx : x < w) (hx' : x' < w)
    (h : y * w + x = y' * w + x') : x = x' ∧ y = y' := by
  have hw : 0 < w := Nat.lt_of_le_of_lt (Nat.zero_le x) hx
  have h2 : x + w * y = x' + w * y' := by
    calc x + w * y = y * w + x := by ring
    _ = y' * w + x' := h
    _ = x' + w * y' := by ring
  have hm : x % w = x' % w := by
    calc x % w = (x + w * y) % w := (Nat.add_mul_mod_self_left x w y).symm
    _ = (x' + w * y') % w := by rw [h2]
    _ = x' % w := Nat.add_mul_mod_self_left x' w y'
  have hxx : x = x' := by
    rwa [Nat.mod_eq_of_lt hx, Nat.mod_eq_of_lt hx'] at hm
  refine ⟨hxx, ?_⟩
  have hd : x / w + y = x' / w + y' := by
    calc x / w + y = (x + w * y) / w := (Nat.add_mul_div_left x y hw).symm
    _ = (x' + w * y') / w := by rw [h2]
    _ = x' / w + y' := Nat.add_mul_div_left x' y' hw
  rw [hxx] at hd
  exact Nat.add_left_cancel hd

/-- In-range flat indices stay below the array length. -/
theorem flatIdx_lt {w h x y : Nat} (hx : x < w) (hy : y < h) :
    y * w + x < w * h := by
  have h1 : y * w + x < (y + 1) * w := by
    rw [Nat.succ_mul]
    omega
  have h2 : (y + 1) * w ≤ h * w := Nat.mul_le_mul_right w hy
  have h3 : h * w = w * h := Nat.mul_comm h w
  omega

/-- In-range reads are plain flat-array reads. -/
theorem board_get_in (b : Board) (x y : Nat) (hx : x < b.width) (hy : y < b.totalHeight) :
    b.get x y = b.cells.getD (y * b.width + x) false := by
  unfold Board.get
  rw [if_neg (by omega)]
  congr 1
/-- The downward scan computes the true column top, given that everything
from the scan start upwards is empty. -/
theorem scanTop_spec (b : Board) (hwf : cellsWf b) (x : Nat) (hx : x < b.width) :
    ∀ n, n ≤ b.totalHeight →
      (∀ y : Nat, y < b.totalHeight → n ≤ y → b.get x y = false) →
      colTopAboveN b x (scanTop b.cells b.width x n) := by
  intro n
  induction n with
  | zero =>
    intro _ hempty
    refine ⟨Nat.zero_le _, ?_, fun y hy _ => hempty y hy (Nat.zero_le y)⟩
    intro h0
    have h0' : (0 : Nat) < 0 := h0
    omega
  | succ m ih =>
    intro hle hempty
    have hm : m < b.totalHeight := Nat.lt_of_succ_le hle
    have hidx : m * b.width + x < b.cells.length := by
      rw [hwf]
      exact flatIdx_lt hx hm
    have hget : b.get x m = b.cells.getD (m * b.width + x) false := board_get_in b x m hx hm
    unfold scanTop
    by_cases hcell : b.cells.getD (m * b.width + x) false = false
    · rw [if_pos ⟨hidx, hcell⟩]
      refine ih (Nat.le_of_lt hm) ?_
      intro y hy hmy
      rcases Nat.eq_or_lt_of_le hmy with rfl | hlt
      · rw [hget]; exact hcell
      · exact hempty y hy hlt
    · rw [if_neg (by intro hand; exact hcell hand.2)]
      refine ⟨hle, ?_, ?_⟩
      · intro _
        rw [show (m + 1 - 1 : Nat) = m from rfl, hget]
        cases hval : b.cells.getD (m * b.width + x) false
        · exact absurd hval hcell
        · rfl
      · intro y hy hmy
        exact hempty y hy hmy
/-- `Board.set` at in-range coordinates, in flat-index normal form. -/
theorem board_set_cast (b : Board) (hwf : cellsWf b) (x y : Nat) (hx : x < b.width)
    (hy : y < b.totalHeight) (v : Bool) :
    b.set x y v = { b with
      cells := b.cells.set (y * b.width + x) v,
      colHeights :=
        if v then
          (if (y : Int) + 1 > b.colHeights.getD x 0 then
            b.colHeights.set x ((y : Int) + 1)
          else b.colHeights)
        else
          (if (y : Int) + 1 = b.colHeights.getD x 0 then
            b.colHeights.set x
              (if y = 0 then 0
               else (scanTop (b.cells.set (y * b.width + x) v) b.width x y : Int))
          else b.colHeights) } := by
  unfold Board.set
  dsimp only
  have hidx : ((y : Int) * b.width + x) = ((y * b.width + x : Nat) : Int) := by push_cast; ring
  rw [if_pos (by
    constructor
    · omega
    · rw [hidx]
      have := flatIdx_lt hx hy
      rw [hwf]
      omega)]
  rw [if_pos (by constructor <;> omega : (0 : Int) ≤ (x : Int) ∧ (x : Int) < (b.width : Int))]
  rw [hidx]
  have htn : ((y * b.width + x : Nat) : Int).toNat = y * b.width + x := by omega
  rw [htn]
  have hxn : ((x : Int)).toNat = x := by omega
  rw [hxn]
  cases v with
  | true => rfl
  | false =>
    simp only [Bool.false_eq_true, if_false]
    by_cases hch : (y : Int) + 1 = b.colHeights.getD x 0
    · rw [if_pos hch, if_pos hch]
      have hyn : ((y : Int)).toNat = y := by omega
      rw [hyn]
      by_cases hy0 : y = 0
      · subst hy0
        rw [if_pos (by omega : ((0 : Nat) : Int) ≤ 0), if_pos rfl]
        norm_num
      · rw [if_neg (by omega : ¬ ((y : Int)) ≤ 0), if_neg hy0]
    · rw [if_neg hch, if_neg hch]
/-- Reading after an in-range write: the written cell for matching
coordinates, the old cell otherwise. -/
theorem board_set_get (b : Board) (hwf : cellsWf b) (x y : Nat) (hx : x < b.width)
    (hy : y < b.totalHeight) (v : Bool) (x' y' : Nat) (hx' : x' < b.width)
    (hy' : y' < b.totalHeight) :
    (b.set x y v).get x' y' = if x' = x ∧ y' = y then v else b.get x' y' := by
  rw [board_set_cast b hwf x y hx hy v]
  generalize (if v = true then
      (if (y : Int) + 1 > b.colHeights.getD x 0 then
        b.colHeights.set x ((y : Int) + 1)
      else b.colHeights)
    else
      (if (y : Int) + 1 = b.colHeights.getD x 0 then
        b.colHeights.set x
          (if y = 0 then 0
           else (scanTop (b.cells.set (y * b.width + x) v) b.width x y : Int))
      else b.colHeights)) = chs
  rw [board_get_in (Board.mk b.width b.totalHeight (b.cells.set (y * b.width + x) v) chs)
    x' y' hx' hy']
  dsimp only
  by_cases heq : x' = x ∧ y' = y
  · rcases heq with ⟨rfl, rfl⟩
    rw [if_pos ⟨rfl, rfl⟩]
    exact getD_set_self _ _ _ _ (by rw [hwf]; exact flatIdx_lt hx hy)
  · rw [if_neg heq]
    have hne : y * b.width + x ≠ y' * b.width + x' := by
      intro hidx
      rcases flatIdx_inj hx hx' hidx with ⟨h1, h2⟩
      exact heq ⟨h1.symm, h2.symm⟩
    rw [getD_set_ne b.cells v false hne]
    exact (board_get_in b x' y' hx' hy').symm
/-- Column tops transfer between boards that agree on reads of the
column. -/
theorem colTopAboveN_congr {b b' : Board} (x n : Nat)
    (hH : b'.totalHeight = b.totalHeight)
    (hg : ∀ y : Nat, y < b.totalHeight → b'.get x y = b.get x y)
    (h : colTopAboveN b x n) : colTopAboveN b' x n := by
  obtain ⟨h1, h2, h3⟩ := h
  refine ⟨by omega, ?_, ?_⟩
  · intro hn
    rw [hg (n - 1) (by omega)]
    exact h2 hn
  · intro y hy hny
    rw [hH] at hy
    rw [hg y hy]
    exact h3 y hy (by omega)
/-- A board that differs from a consistent one only in column `x` (cells)
and whose cache entry for `x` is a fresh correct value `c` (or the retained
old value) is consistent. -/
theorem cache_update_consistent (b b' : Board) (x : Nat) (c : Int) (hx : x < b.width)
    (hW : b'.width = b.width) (hH : b'.totalHeight = b.totalHeight)
    (hget : ∀ x2 y2 : Nat, x2 < b.width → y2 < b.totalHeight → x2 ≠ x →
      b'.get x2 y2 = b.get x2 y2)
    (hcc : cacheConsistent b)
    (hch : b'.colHeights = b.colHeights.set x c ∨
      (b'.colHeights = b.colHeights ∧ c = b.colHeights.getD x 0))
    (hc0 : 0 ≤ c)
    (hcol : colTopAboveN b' x c.toNat) :
    cacheConsistent b' := by
  obtain ⟨hlen, hcols⟩ := hcc
  constructor
  · rcases hch with hch | ⟨hch, _⟩
    · rw [hch, List.length_set, hlen, hW]
    · rw [hch, hlen, hW]
  · intro x2 hx2
    rw [hW] at hx2
    by_cases hxx : x2 = x
    · subst hxx
      have hentry : b'.colHeights.getD x2 0 = c := by
        rcases hch with hch | ⟨hch, hceq⟩
        · rw [hch]
          exact getD_set_self _ _ _ _ (by rw [hlen]; exact hx2)
        · rw [hch, ← hceq]
      rw [hentry]
      exact ⟨hc0, hcol⟩
    · have hentry : b'.colHeights.getD x2 0 = b.colHeights.getD x2 0 := by
        rcases hch with hch | ⟨hch, _⟩
        · rw [hch]
          exact getD_set_ne _ _ _ (fun h => hxx h.symm)
        · rw [hch]
      rw [hentry]
      refine ⟨(hcols x2 hx2).1, ?_⟩
      exact colTopAboveN_congr x2 _ hH (fun y2 hy2 => hget x2 y2 hx2 hy2 hxx)
        (hcols x2 hx2).2
/-- An in-range `Board.set` preserves well-formedness and cache
consistency. -/
theorem set_preservesN (b : Board) (x y : Nat) (v : Bool) (hwf : cellsWf b)
    (hcc : cacheConsistent b) (hx : x < b.width) (hy : y < b.totalHeight) :
    cellsWf (b.set x y v) ∧ cacheConsistent (b.set x y v) := by
  have hW : (b.set x y v).width = b.width := by
    rw [board_set_cast b hwf x y hx hy v]
  have hH : (b.set x y v).totalHeight = b.totalHeight := by
    rw [board_set_cast b hwf x y hx hy v]
  have hcellseq : (b.set x y v).cells = b.cells.set (y * b.width + x) v := by
    rw [board_set_cast b hwf x y hx hy v]
  have hwf' : cellsWf (b.set x y v) := by
    unfold cellsWf
    rw [hcellseq, hW, hH, List.length_set]
    exact hwf
  have hget := board_set_get b hwf x y hx hy v
  have hgetne : ∀ x2 y2 : Nat, x2 < b.width → y2 < b.totalHeight → x2 ≠ x →
      (b.set x y v).get x2 y2 = b.get x2 y2 := by
    intro x2 y2 hx2 hy2 hxx
    rw [hget x2 y2 hx2 hy2, if_neg (fun h => hxx h.1)]
  obtain ⟨hch0, htople, htopfill, htopempty⟩ :
      0 ≤ b.colHeights.getD x 0 ∧ (b.colHeights.getD x 0).toNat ≤ b.totalHeight ∧
      (0 < (b.colHeights.getD x 0).toNat →
        b.get x (((b.colHeights.getD x 0).toNat - 1 : Nat)) = true) ∧
      ∀ y2 : Nat, y2 < b.totalHeight → (b.colHeights.getD x 0).toNat ≤ y2 →
        b.get x y2 = false := by
    obtain ⟨h1, h2, h3, h4⟩ := hcc.2 x hx
    exact ⟨h1, h2, h3, h4⟩
  refine ⟨hwf', ?_⟩
  cases v with
  | true =>
    have hcheq : (b.set x y true).colHeights =
        (if (y : Int) + 1 > b.colHeights.getD x 0 then
          b.colHeights.set x ((y : Int) + 1)
        else b.colHeights) := by
      rw [board_set_cast b hwf x y hx hy true]
      rfl
    by_cases hgt : (y : Int) + 1 > b.colHeights.getD x 0
    · refine cache_update_consistent b _ x ((y : Int) + 1) hx hW hH hgetne hcc
        (Or.inl (by rw [hcheq, if_pos hgt])) (by omega) ?_
      have htn : (((y : Int) + 1)).toNat = y + 1 := by omega
      rw [htn]
      refine ⟨by omega, ?_, ?_⟩
      · intro _
        rw [show (y + 1 - 1 : Nat) = y from rfl]
        rw [hget x y hx hy, if_pos ⟨rfl, rfl⟩]
      · intro y2 hy2 hge
        rw [hget x y2 hx hy2, if_neg (by omega : ¬ (x = x ∧ y2 = y))]
        exact htopempty y2 hy2 (by omega)
    · refine cache_update_consistent b _ x (b.colHeights.getD x 0) hx hW hH hgetne hcc
        (Or.inr ⟨by rw [hcheq, if_neg hgt], rfl⟩) hch0 ?_
      refine ⟨by omega, ?_, ?_⟩
      · intro hpos
        rw [hget x _ hx (by omega)]
        by_cases htop : (b.colHeights.getD x 0).toNat - 1 = y
        · rw [if_pos ⟨rfl, htop⟩]
        · rw [if_neg (by omega : ¬ (x = x ∧ (b.colHeights.getD x 0).toNat - 1 = y))]
          exact htopfill hpos
      · intro y2 hy2 hge
        rw [hget x y2 hx hy2, if_neg (by omega : ¬ (x = x ∧ y2 = y))]
        exact htopempty y2 hy2 hge
  | false =>
    have hcheq : (b.set x y false).colHeights =
        (if (y : Int) + 1 = b.colHeights.getD x 0 then
          b.colHeights.set x
            (if y = 0 then 0
             else (scanTop (b.cells.set (y * b.width + x) false) b.width x y : Int))
        else b.colHeights) := by
      rw [board_set_cast b hwf x y hx hy false]
      rfl
    by_cases heq : (y : Int) + 1 = b.colHeights.getD x 0
    · by_cases hy0 : y = 0
      · subst hy0
        refine cache_update_consistent b _ x 0 hx hW hH hgetne hcc
          (Or.inl (by rw [hcheq, if_pos heq, if_pos rfl])) (by omega) ?_
        refine ⟨by omega, by omega, ?_⟩
        intro y2 hy2 _
        rw [hget x y2 hx hy2]
        by_cases h2 : y2 = 0
        · rw [if_pos ⟨rfl, h2⟩]
        · rw [if_neg (by omega : ¬ (x = x ∧ y2 = 0))]
          exact htopempty y2 hy2 (by omega)
      · refine cache_update_consistent b _ x
          ((scanTop (b.cells.set (y * b.width + x) false) b.width x y : Nat) : Int)
          hx hW hH hgetne hcc
          (Or.inl (by rw [hcheq, if_pos heq, if_neg hy0])) (by omega) ?_
        have htn : (((scanTop (b.cells.set (y * b.width + x) false) b.width x y : Nat) :
            Int)).toNat = scanTop (b.cells.set (y * b.width + x) false) b.width x y := by
          omega
        rw [htn]
        have hspec := scanTop_spec (b.set x y false) hwf' x (by rw [hW]; exact hx) y
          (by rw [hH]; omega) ?_
        · rw [hcellseq, hW] at hspec
          refine colTopAboveN_congr x _ rfl (fun _ _ => rfl) hspec
        · intro y2 hy2 hge
          rw [hH] at hy2
          rw [hget x y2 hx hy2]
          by_cases h2 : y2 = y
          · rw [if_pos ⟨rfl, h2⟩]
          · rw [if_neg (by omega : ¬ (x = x ∧ y2 = y))]
            exact htopempty y2 hy2 (by omega)
    · refine cache_update_consistent b _ x (b.colHeights.getD x 0) hx hW hH hgetne hcc
        (Or.inr ⟨by rw [hcheq, if_neg heq], rfl⟩) hch0 ?_
      refine ⟨by omega, ?_, ?_⟩
      · intro hpos
        rw [hget x _ hx (by omega)]
        rw [if_neg (by omega : ¬ (x = x ∧ (b.colHeights.getD x 0).toNat - 1 = y))]
        exact htopfill hpos
      · intro y2 hy2 hge
        rw [hget x y2 hx hy2]
        by_cases h2 : y2 = y
        · rw [if_pos ⟨rfl, h2⟩]
        · rw [if_neg (by omega : ¬ (x = x ∧ y2 = y))]
          exact htopempty y2 hy2 hge
/-- Every read of a fresh board is empty. -/
theorem new_get (w h : Nat) (x y : Int) : (Board.new w h).get x y = false := by
  unfold Board.get Board.new
  dsimp only
  split
  · rfl
  · rw [List.getD_eq_getElem?_getD, List.getElem?_replicate]
    split <;> rfl

/-- Fresh boards are well formed with a consistent (all-zero) cache. -/
theorem new_consistent (w h : Nat) :
    cellsWf (Board.new w h) ∧ cacheConsistent (Board.new w h) := by
  refine ⟨?_, ?_, ?_⟩
  · unfold cellsWf Board.new
    exact List.length_replicate _ _
  · unfold Board.new
    exact List.length_replicate _ _
  · intro x hx
    have hentry : (Board.new w h).colHeights.getD x 0 = 0 := by
      unfold Board.new
      exact getD_replicate_lt w (0 : Int) 0 (by
        have : (Board.new w h).width = w := rfl
        rw [this] at hx
        exact hx)
    rw [hentry]
    refine ⟨le_refl 0, ⟨Nat.zero_le _, fun h0 => absurd h0 (by omega), ?_⟩⟩
    intro y hy _
    exact new_get w h x y
/-- A clone is the same board, so it inherits consistency. -/
theorem clone_eq (b : Board) : b.clone = b := rfl

/-- Column tops are unique: the cache value is THE topmost filled cell
plus one. -/
theorem colTopAboveN_unique (b : Board) (x n1 n2 : Nat)
    (h1 : colTopAboveN b x n1) (h2 : colTopAboveN b x n2) : n1 = n2 := by
  obtain ⟨hle1, hfill1, hempty1⟩ := h1
  obtain ⟨hle2, hfill2, hempty2⟩ := h2
  by_contra hne
  rcases Nat.lt_or_ge n1 n2 with hlt | hge
  · have hf := hfill2 (by omega)
    have he := hempty1 (n2 - 1) (by omega) (by omega)
    rw [he] at hf
    exact Bool.false_ne_true hf
  · have hlt : n2 < n1 := by omega
    have hf := hfill1 (by omega)
    have he := hempty2 (n1 - 1) (by omega) (by omega)
    rw [he] at hf
    exact Bool.false_ne_true hf

/-- Int-coordinate wrapper for `set_preservesN`. -/
theorem set_preserves (b : Board) (x y : Int) (v : Bool) (hwf : cellsWf b)
    (hcc : cacheConsistent b) (hx0 : 0 ≤ x) (hxw : x < (b.width : Int))
    (hy0 : 0 ≤ y) (hyh : y < (b.totalHeight : Int)) :
    cellsWf (b.set x y v) ∧ cacheConsistent (b.set x y v) := by
  have hxx : x = ((x.toNat : Nat) : Int) := by omega
  have hyy : y = ((y.toNat : Nat) : Int) := by omega
  rw [hxx, hyy]
  exact set_preservesN b x.toNat y.toNat v hwf hcc (by omega) (by omega)
theorem set_width (b : Board) (x y : Int) (v : Bool) : (b.set x y v).width = b.width := rfl

theorem set_totalHeight (b : Board) (x y : Int) (v : Bool) :
    (b.set x y v).totalHeight = b.totalHeight := rfl

/-- A non-colliding pair keeps every piece cell inside the grid. -/
theorem collides_false_bounds (b : Board) (piece : Piece) (rot : Rotation) (px py : Int)
    (h : b.collides piece rot px py = false) :
    ∀ cell ∈ pieceCells piece rot,
      0 ≤ px + cell.x ∧ px + cell.x < (b.width : Int) ∧
      0 ≤ py + cell.y ∧ py + cell.y < (b.totalHeight : Int) := by
  unfold Board.collides at h
  rw [List.any_eq_false] at h
  intro cell hc
  have hcell := h cell hc
  dsimp only at hcell
  by_cases hb : px + cell.x < 0 ∨ (b.width : Int) ≤ px + cell.x ∨
      py + cell.y < 0 ∨ (b.totalHeight : Int) ≤ py + cell.y
  · rw [if_pos hb] at hcell
    exact absurd rfl hcell
  · constructor
    · omega
    constructor
    · omega
    constructor
    · omega
    · omega

/-- The cell-write fold of `placePiece` preserves well-formedness and
cache consistency when every listed cell is in range. -/
theorem placeFold_preserves (wdt hgt : Nat) (px py : Int) (tr : Option Int) :
    ∀ (l : List Vec2) (bd : Board) (placed : List Vec2),
      bd.width = wdt → bd.totalHeight = hgt →
      cellsWf bd → cacheConsistent bd →
      (∀ cell ∈ l, 0 ≤ px + cell.x ∧ px + cell.x < (wdt : Int) ∧
        0 ≤ py + cell.y ∧ py + cell.y < (hgt : Int)) →
      (l.foldl (placeStep tr px py) (bd, placed)).1.width = wdt ∧
      (l.foldl (placeStep tr px py) (bd, placed)).1.totalHeight = hgt ∧
      cellsWf (l.foldl (placeStep tr px py) (bd, placed)).1 ∧
      cacheConsistent (l.foldl (placeStep tr px py) (bd, placed)).1 := by
  intro l
  induction l with
  | nil =>
    intro bd placed hW hH hwf hcc _
    exact ⟨hW, hH, hwf, hcc⟩
  | cons cell l ih =>
    intro bd placed hW hH hwf hcc hbounds
    simp only [List.foldl_cons]
    have hcb := hbounds cell (List.mem_cons_self _ _)
    have hrest : ∀ c ∈ l, 0 ≤ px + c.x ∧ px + c.x < (wdt : Int) ∧
        0 ≤ py + c.y ∧ py + c.y < (hgt : Int) :=
      fun c hc => hbounds c (List.mem_cons_of_mem _ hc)
    have hsetgood : cellsWf (bd.set (px + cell.x) (py + cell.y) true) ∧
        cacheConsistent (bd.set (px + cell.x) (py + cell.y) true) := by
      refine set_preserves bd (px + cell.x) (py + cell.y) true hwf hcc ?_ ?_ ?_ ?_
      · omega
      · rw [hW]; omega
      · omega
      · rw [hH]; omega
    cases tr with
    | none =>
      exact ih (bd.set (px + cell.x) (py + cell.y) true) (placed ++ [⟨px + cell.x, py + cell.y⟩])
        (by rw [set_width]; exact hW) (by rw [set_totalHeight]; exact hH)
        hsetgood.1 hsetgood.2 hrest
    | some t =>
      have hstep : placeStep (some t) px py (bd, placed) cell =
          (if t ≤ py + cell.y then (bd, placed)
           else (bd.set (px + cell.x) (py + cell.y) true,
             placed ++ [⟨px + cell.x, py + cell.y⟩])) := rfl
      rw [hstep]
      by_cases ht : t ≤ py + cell.y
      · rw [if_pos ht]
        exact ih bd placed hW hH hwf hcc hrest
      · rw [if_neg ht]
        exact ih (bd.set (px + cell.x) (py + cell.y) true)
          (placed ++ [⟨px + cell.x, py + cell.y⟩])
          (by rw [set_width]; exact hW) (by rw [set_totalHeight]; exact hH)
          hsetgood.1 hsetgood.2 hrest

/-- Locking a non-colliding piece preserves well-formedness and cache
consistency. -/
theorem placePiece_preserves (b : Board) (piece : Piece) (rot : Rotation) (px py : Int)
    (tr : Option Int) (hwf : cellsWf b) (hcc : cacheConsistent b)
    (hcol : b.collides piece rot px py = false) :
    cellsWf (b.placePiece piece rot px py tr).1 ∧
    cacheConsistent (b.placePiece piece rot px py tr).1 := by
  unfold Board.placePiece
  have := placeFold_preserves b.width b.totalHeight px py tr (pieceCells piece rot) b []
    rfl rfl hwf hcc (collides_false_bounds b piece rot px py hcol)
  exact ⟨this.2.2.1, this.2.2.2⟩
/-- Each row slice of a well-formed board has the full width. -/
theorem rowOf_length (b : Board) (hwf : cellsWf b) (r : Nat) (hr : r < b.totalHeight) :
    (b.rowOf r).length = b.width := by
  unfold Board.rowOf
  rw [List.length_take, List.length_drop, hwf]
  have h1 : (r + 1) * b.width ≤ b.totalHeight * b.width := Nat.mul_le_mul_right _ hr
  have h2 : (r + 1) * b.width = r * b.width + b.width := by ring
  have h3 : b.totalHeight * b.width = b.width * b.totalHeight := Nat.mul_comm _ _
  omega

/-- Concatenating the first `k` row slices is taking the first `k` rows of
the flat array. -/
theorem flatten_rows (b : Board) :
    ∀ k : Nat, (((List.range k).map b.rowOf)).flatten = b.cells.take (k * b.width) := by
  intro k
  induction k with
  | zero => simp
  | succ m ih =>
    rw [List.range_succ, List.map_append, List.flatten_append, ih]
    rw [Nat.succ_mul, List.take_add]
    simp [Board.rowOf]
/-- Line clearing preserves well-formedness and cache consistency: the
heights are rebuilt by the top-down scan when rows were cleared, and
nothing changes otherwise. -/
theorem clearLines_preserves (b : Board) (hwf : cellsWf b) (hcc : cacheConsistent b) :
    cellsWf (b.clearLines).1 ∧ cacheConsistent (b.clearLines).1 := by
  unfold Board.clearLines
  dsimp only
  have hkle : ((List.range b.totalHeight).filter fun r => !(b.isRowFull r)).length ≤
      b.totalHeight := by
    have := List.length_filter_le (fun r => !(b.isRowFull r)) (List.range b.totalHeight)
    rwa [List.length_range] at this
  have hflatlen : ((((List.range b.totalHeight).filter fun r => !(b.isRowFull r)).map
      b.rowOf).flatten).length =
      ((List.range b.totalHeight).filter fun r => !(b.isRowFull r)).length * b.width := by
    rw [List.length_flatten, List.map_map]
    have hconst : (((List.range b.totalHeight).filter fun r => !(b.isRowFull r)).map
        (List.length ∘ b.rowOf)) =
        List.replicate (((List.range b.totalHeight).filter fun r =>
          !(b.isRowFull r)).length) b.width := by
      refine List.eq_replicate.mpr ⟨List.length_map _ _, ?_⟩
      intro n hn
      rw [List.mem_map] at hn
      obtain ⟨r, hr, hrn⟩ := hn
      have hrh : r < b.totalHeight := List.mem_range.mp (List.mem_filter.mp hr).1
      rw [← hrn]
      exact rowOf_length b hwf r hrh
    rw [hconst, List.sum_replicate, smul_eq_mul]
  have hcells' : ((((List.range b.totalHeight).filter fun r => !(b.isRowFull r)).map
        b.rowOf).flatten ++
      List.replicate ((b.totalHeight - ((List.range b.totalHeight).filter fun r =>
        !(b.isRowFull r)).length) * b.width) false).length = b.width * b.totalHeight := by
    rw [List.length_append, hflatlen, List.length_replicate]
    rw [← Nat.add_mul]
    have hk : ((List.range b.totalHeight).filter fun r => !(b.isRowFull r)).length +
        (b.totalHeight - ((List.range b.totalHeight).filter fun r =>
          !(b.isRowFull r)).length) = b.totalHeight := by omega
    rw [hk]
    exact Nat.mul_comm _ _
  refine ⟨hcells', ?_⟩
  by_cases hcl : ((List.range b.totalHeight).filter fun r => b.isRowFull r).length > 0
  · rw [if_pos hcl]
    constructor
    · rw [List.length_map, List.length_range]
    · intro x hx
      have hxw : x < b.width := hx
      rw [getD_map_range _ b.width x 0 hxw]
      refine ⟨by omega, ?_⟩
      have htn : ∀ n : Nat, ((n : Int)).toNat = n := by omega
      rw [htn]
      refine scanTop_spec _ ?_ x ?_ b.totalHeight (le_refl _) ?_
      · exact hcells'
      · exact hxw
      · intro y2 h1 h2
        have h1' : y2 < b.totalHeight := h1
        omega
  · rw [if_neg hcl]
    have hclear : ((List.range b.totalHeight).filter fun r => b.isRowFull r) = [] := by
      rcases h : ((List.range b.totalHeight).filter fun r => b.isRowFull r) with _ | ⟨a, l⟩
      · rfl
      · rw [h] at hcl
        exact absurd (by simp) hcl
    have hnone : ∀ r ∈ List.range b.totalHeight, ¬ b.isRowFull r = true :=
      List.filter_eq_nil.mp hclear
    have hkept : ((List.range b.totalHeight).filter fun r => !(b.isRowFull r)) =
        List.range b.totalHeight := by
      refine List.filter_eq_self.mpr ?_
      intro r hr
      have h2 : b.isRowFull r = false := by
        cases h4 : b.isRowFull r
        · rfl
        · exact absurd h4 (hnone r hr)
      rw [h2]
      rfl
    rw [hkept, List.length_range, Nat.sub_self, Nat.zero_mul, List.replicate_zero,
      List.append_nil, flatten_rows b b.totalHeight]
    have htake : b.cells.take (b.totalHeight * b.width) = b.cells := by
      have hle2 : b.cells.length ≤ b.totalHeight * b.width := by
        rw [hwf, Nat.mul_comm]
      exact List.take_of_length_le hle2
    rw [htake]
    exact hcc
/-- C9 counterexample: an out-of-range `set` above the board reports a new
column height although the cell write itself is dropped, breaking the
cache: the claim does not hold for every call, only for in-range ones. -/
theorem cache_invariant_oob_counterexample :
    cacheConsistent (Board.new 1 6) ∧
    ¬ cacheConsistent ((Board.new 1 6).set 0 10 true) := by
  refine ⟨by decide, by decide⟩

/-- C9 (amended): the per-column height cache invariant — a fresh board is
consistent, and consistency (every cached entry is exactly the index of
the column's topmost filled cell plus 1, and 0 for an empty column — the
unique such value, by the final conjunct) is preserved by `set` at
in-range coordinates, by `placePiece` at a non-colliding position, by
`clearLines`, and by `clone`. -/
theorem column_cache_invariant :
    (∀ w h : Nat, cellsWf (Board.new w h) ∧ cacheConsistent (Board.new w h)) ∧
    (∀ (b : Board) (x y : Int) (v : Bool), cellsWf b → cacheConsistent b →
      0 ≤ x → x < (b.width : Int) → 0 ≤ y → y < (b.totalHeight : Int) →
      cellsWf (b.set x y v) ∧ cacheConsistent (b.set x y v)) ∧
    (∀ (b : Board) (piece : Piece) (rot : Rotation) (px py : Int) (tr : Option Int),
      cellsWf b → cacheConsistent b → b.collides piece rot px py = false →
      cellsWf (b.placePiece piece rot px py tr).1 ∧
      cacheConsistent (b.placePiece piece rot px py tr).1) ∧
    (∀ b : Board, cellsWf b → cacheConsistent b →
      cellsWf (b.clearLines).1 ∧ cacheConsistent (b.clearLines).1) ∧
    (∀ b : Board, cacheConsistent b → cacheConsistent b.clone) ∧
    (∀ (b : Board) (x n1 n2 : Nat), colTopAboveN b x n1 → colTopAboveN b x n2 → n1 = n2) := by
  refine ⟨new_consistent, set_preserves, placePiece_preserves, clearLines_preserves, ?_,
    colTopAboveN_unique⟩
  intro b hcc
  rw [clone_eq]
  exact hcc

/-- Witness for C9 on concrete boards and operations. -/
theorem column_cache_invariant_witness :
    (cellsWf (Board.new 3 6) ∧ cacheConsistent (Board.new 3 6)) ∧
    (cellsWf (bCell00.set 1 2 true) ∧ cacheConsistent (bCell00.set 1 2 true)) ∧
    (cellsWf (bCell00.placePiece .O 0 0 0 none).1 ∧
     cacheConsistent (bCell00.placePiece .O 0 0 0 none).1) ∧
    (cellsWf bTwoRows.clearLines.1 ∧ cacheConsistent bTwoRows.clearLines.1) ∧
    cacheConsistent bCell00.clone :=
  ⟨column_cache_invariant.1 3 6,
   column_cache_invariant.2.1 bCell00 1 2 true (by decide) (by decide) (by decide) (by decide)
     (by decide) (by decide),
   column_cache_invariant.2.2.1 bCell00 .O 0 0 0 none (by decide) (by decide) (by decide),
   column_cache_invariant.2.2.2.1 bTwoRows (by decide) (by decide),
   column_cache_invariant.2.2.2.2.1 bCell00 (by decide)⟩

theorem inChain_self (b : Board) (piece : Piece) (s : BfsState)
    (h : stateOK b piece s) : inChain b piece s s := by
  refine ⟨rfl, rfl, le_refl _, ?_⟩
  intro y' h1 h2
  have : y' = s.y := le_antisymm h2 h1
  rw [this]
  exact h

theorem inChain_stateOK (b : Board) (piece : Piece) (s t : BfsState)
    (h : inChain b piece s t) : stateOK b piece t := by
  obtain ⟨h1, h2, h3, h4⟩ := h
  unfold stateOK
  rw [h1, h2]
  exact h4 t.y (le_refl _) h3

/-- Every piece table is non-empty. -/
theorem pieceCells_nonempty : ∀ (p : Piece) (r : Rotation), pieceCells p r ≠ [] := by
  intro p
  cases p <;> decide

/-- Every piece cell offset lies in the 4×4 box. -/
theorem pieceCells_bounds : ∀ (p : Piece) (r : Rotation), ∀ c ∈ pieceCells p r,
    0 ≤ c.x ∧ c.x ≤ 3 ∧ 0 ≤ c.y ∧ c.y ≤ 3 := by
  intro p
  cases p <;> decide

/-- A non-colliding state sits in the one-piece margin around the board. -/
theorem stateOK_bounds (b : Board) (piece : Piece) (s : BfsState)
    (h : stateOK b piece s) :
    -3 ≤ s.x ∧ s.x < (b.width : Int) ∧ -3 ≤ s.y ∧ s.y < (b.totalHeight : Int) := by
  have hb := collides_false_bounds b piece s.rotation s.x s.y h
  rcases hcell : pieceCells piece s.rotation with _ | ⟨c, cs⟩
  · exact absurd hcell (pieceCells_nonempty piece s.rotation)
  · have hc := hb c (by rw [hcell]; exact List.mem_cons_self _ _)
    have hcb := pieceCells_bounds piece s.rotation c (by rw [hcell]; exact List.mem_cons_self _ _)
    obtain ⟨h1, h2, h3, h4⟩ := hc
    obtain ⟨h5, h6, h7, h8⟩ := hcb
    refine ⟨by omega, by omega, by omega, by omega⟩

/-- Mixed-radix digits are cancellable. -/
theorem int_mixed_radix_inj (S A B a b : Int) (hS : 0 < S) (ha : 0 ≤ a) (haS : a < S)
    (hb : 0 ≤ b) (hbS : b < S) (h : A * S + a = B * S + b) : A = B ∧ a = b := by
  have h2 : a + S * A = b + S * B := by
    calc a + S * A = A * S + a := by ring
    _ = B * S + b := h
    _ = b + S * B := by ring
  have hab : a = b := by
    have h3 : (a + S * A) % S = a % S := Int.add_mul_emod_self_left a S A
    have h4 : (b + S * B) % S = b % S := Int.add_mul_emod_self_left b S B
    rw [h2, h4] at h3
    rw [Int.emod_eq_of_lt ha haS, Int.emod_eq_of_lt hb hbS] at h3
    omega
  refine ⟨?_, hab⟩
  have h5 : S * A = S * B := by omega
  exact mul_left_cancel₀ (ne_of_gt hS) h5

/-- Encoded indices of in-margin states are inside the visited array. -/
theorem encode_range (w h : Nat) (s : BfsState) (hx : -3 ≤ s.x) (hxw : s.x < (w : Int))
    (hy : -3 ≤ s.y) (hyh : s.y < (h : Int)) :
    0 ≤ enc (w + 8) s ∧ enc (w + 8) s < (((h + 8) * (w + 8) * 4 : Nat) : Int) := by
  unfold enc encodeState
  have hst : ((w + 8 : Nat) : Int) = (w : Int) + 8 := by push_cast; ring
  have hsz : (((h + 8) * (w + 8) * 4 : Nat) : Int) =
      ((h : Int) + 8) * ((w : Int) + 8) * 4 := by push_cast; ring
  rw [hst, hsz]
  have hr0 : (0 : Int) ≤ s.rotation.val := Int.natCast_nonneg _
  have hr4 : (s.rotation.val : Int) < 4 := by
    have := s.rotation.isLt
    omega
  constructor
  · have h1 : (0 : Int) ≤ (s.y + 4) * ((w : Int) + 8) := mul_nonneg (by omega) (by omega)
    have h2 : (0 : Int) ≤ ((s.y + 4) * ((w : Int) + 8) + (s.x + 4)) * 4 :=
      mul_nonneg (by omega) (by norm_num)
    omega
  · have hyS : (s.y + 4) * ((w : Int) + 8) ≤ ((h : Int) + 7) * ((w : Int) + 8) :=
      mul_le_mul_of_nonneg_right (by omega) (by omega)
    have hexp : ((h : Int) + 8) * ((w : Int) + 8) =
        ((h : Int) + 7) * ((w : Int) + 8) + ((w : Int) + 8) := by ring
    have hin : (s.y + 4) * ((w : Int) + 8) + (s.x + 4) + 1 ≤
        ((h : Int) + 8) * ((w : Int) + 8) := by omega
    have hmul : ((s.y + 4) * ((w : Int) + 8) + (s.x + 4) + 1) * 4 ≤
        ((h : Int) + 8) * ((w : Int) + 8) * 4 :=
      mul_le_mul_of_nonneg_right hin (by norm_num)
    have hexp2 : ((s.y + 4) * ((w : Int) + 8) + (s.x + 4) + 1) * 4 =
        ((s.y + 4) * ((w : Int) + 8) + (s.x + 4)) * 4 + 4 := by ring
    omega

/-- Encoding is injective on in-margin states. -/
theorem encode_inj (w h : Nat) (s t : BfsState)
    (hsx : -3 ≤ s.x) (hsxw : s.x < (w : Int)) (hsy : -3 ≤ s.y) (hsyh : s.y < (h : Int))
    (htx : -3 ≤ t.x) (htxw : t.x < (w : Int)) (hty : -3 ≤ t.y) (htyh : t.y < (h : Int))
    (heq : enc (w + 8) s = enc (w + 8) t) : s = t := by
  unfold enc encodeState at heq
  have hst : ((w + 8 : Nat) : Int) = (w : Int) + 8 := by push_cast; ring
  rw [hst] at heq
  have hr4s : (s.rotation.val : Int) < 4 := by
    have := s.rotation.isLt
    omega
  have hr4t : (t.rotation.val : Int) < 4 := by
    have := t.rotation.isLt
    omega
  obtain ⟨hinner, hrot⟩ := int_mixed_radix_inj 4
    ((s.y + 4) * ((w : Int) + 8) + (s.x + 4)) ((t.y + 4) * ((w : Int) + 8) + (t.x + 4))
    (s.rotation.val) (t.rotation.val) (by norm_num)
    (Int.natCast_nonneg _) hr4s (Int.natCast_nonneg _) hr4t heq
  obtain ⟨hyy, hxx⟩ := int_mixed_radix_inj ((w : Int) + 8)
    (s.y + 4) (t.y + 4) (s.x + 4) (t.x + 4) (by omega)
    (by omega) (by omega) (by omega) (by omega) hinner
  obtain ⟨sx, sy, sr⟩ := s
  obtain ⟨tx, ty, tr⟩ := t
  dsimp only at hyy hxx hrot ⊢
  have h1 : sx = tx := by omega
  have h2 : sy = ty := by omega
  have h3 : sr = tr := Fin.ext (by omega)
  rw [h1, h2, h3]
/-- Flipping a false entry to true removes exactly one false. -/
theorem count_false_set_true :
    ∀ (l : List Bool) (i : Nat), i < l.length → l.getD i false = false →
      (l.set i true).count false + 1 = l.count false := by
  intro l
  induction l with
  | nil =>
    intro i hi _
    exact absurd hi (by simp)
  | cons c t ih =>
    intro i hi hget
    cases i with
    | zero =>
      have hc : c = false := hget
      rw [hc]
      show (true :: t).count false + 1 = (false :: t).count false
      simp [List.count_cons]
    | succ j =>
      have hj : j < t.length := by
        simp only [List.length_cons] at hi
        omega
      have hget2 : t.getD j false = false := hget
      have hih := ih j hj hget2
      show (c :: t.set j true).count false + 1 = (c :: t).count false
      rw [List.count_cons, List.count_cons]
      omega
/-- Full specification of one guarded push. -/
theorem tryPush_spec (stride size : Nat) (visited : List Bool) (queue : List BfsState)
    (s : BfsState) (hvlen : visited.length = size) :
    (tryPush stride size visited queue s).1.length = size ∧
    (tryPush stride size visited queue s).2.length +
      (tryPush stride size visited queue s).1.count false =
      queue.length + visited.count false ∧
    (∀ u ∈ (tryPush stride size visited queue s).2, u ∈ queue ∨ u = s) ∧
    (∀ u ∈ queue, u ∈ (tryPush stride size visited queue s).2) ∧
    (∀ i : Nat, visited.getD i false = true →
      (tryPush stride size visited queue s).1.getD i false = true) ∧
    (∀ i : Nat, (tryPush stride size visited queue s).1.getD i false = true →
      visited.getD i false = true ∨
      (s ∈ (tryPush stride size visited queue s).2 ∧
        (encodeState s.x s.y s.rotation stride).toNat = i)) ∧
    (0 ≤ encodeState s.x s.y s.rotation stride →
      encodeState s.x s.y s.rotation stride < (size : Int) →
      s ∈ (tryPush stride size visited queue s).2 ∨
      visited.getD (encodeState s.x s.y s.rotation stride).toNat false = true) := by
  unfold tryPush
  dsimp only
  by_cases hg : 0 ≤ encodeState s.x s.y s.rotation stride ∧
      encodeState s.x s.y s.rotation stride < (size : Int) ∧
      visited.getD (encodeState s.x s.y s.rotation stride).toNat false = false
  · rw [if_pos hg]
    dsimp only
    obtain ⟨hg1, hg2, hg3⟩ := hg
    have hlt : (encodeState s.x s.y s.rotation stride).toNat < visited.length := by
      rw [hvlen]
      omega
    refine ⟨?_, ?_, ?_, ?_, ?_, ?_, ?_⟩
    · rw [List.length_set]
      exact hvlen
    · rw [List.length_append]
      have := count_false_set_true visited
        (encodeState s.x s.y s.rotation stride).toNat hlt hg3
      simp only [List.length_cons, List.length_nil]
      omega
    · intro u hu
      rcases List.mem_append.mp hu with h | h
      · exact Or.inl h
      · exact Or.inr (List.mem_singleton.mp h)
    · intro u hu
      exact List.mem_append.mpr (Or.inl hu)
    · intro i hi
      by_cases hii : (encodeState s.x s.y s.rotation stride).toNat = i
      · rw [← hii]
        rw [getD_set_self _ _ _ _ hlt]
      · rw [getD_set_ne _ _ _ hii]
        exact hi
    · intro i hi
      by_cases hii : (encodeState s.x s.y s.rotation stride).toNat = i
      · exact Or.inr ⟨List.mem_append.mpr (Or.inr (List.mem_singleton.mpr rfl)), hii⟩
      · rw [getD_set_ne _ _ _ hii] at hi
        exact Or.inl hi
    · intro _ _
      exact Or.inl (List.mem_append.mpr (Or.inr (List.mem_singleton.mpr rfl)))
  · rw [if_neg hg]
    refine ⟨hvlen, rfl, fun u hu => Or.inl hu, fun u hu => hu, fun i hi => hi,
      fun i hi => Or.inl hi, ?_⟩
    intro h1 h2
    by_cases h3 : visited.getD (encodeState s.x s.y s.rotation stride).toNat false = false
    · exact absurd ⟨h1, h2, h3⟩ hg
    · right
      cases h4 : visited.getD (encodeState s.x s.y s.rotation stride).toNat false
      · exact absurd h4 h3
      · rfl
/-- A successful SRS rotation lands on a non-colliding state. -/
theorem tryRotate_sound (b : Board) (piece : Piece) (fromRot : Rotation) (dir : Int)
    (x y : Int) (r : RotateResult) (h : tryRotate b piece fromRot dir x y = some r) :
    b.collides piece r.rotation r.x r.y = false := by
  unfold tryRotate at h
  cases piece
  case O =>
    dsimp only at h
    split at h <;> split at h <;>
      first
      | (obtain rfl := Option.some.inj h
         rename_i h2
         simpa using h2)
      | exact absurd h (by simp)
  all_goals
    dsimp only at h
  all_goals
    obtain ⟨kick, hkick, heq⟩ := List.exists_of_findSome?_eq_some h
  all_goals
    split at heq
  all_goals
    split at heq
  all_goals
    first
    | (obtain rfl := Option.some.inj heq
       rename_i h2
       simpa using h2)
    | exact absurd heq (by simp)

theorem pushInv_refl (stride size : Nat) (b : Board) (piece : Piece)
    (v0 : List Bool) (q0 : List BfsState) (hvlen : v0.length = size) :
    pushInv stride size b piece v0 q0 v0 q0 :=
  ⟨hvlen, rfl, fun u hu => Or.inl hu, fun u hu => hu, fun _ hi => hi, fun _ hi => Or.inl hi⟩

theorem pushInv_trans {stride size : Nat} {b : Board} {piece : Piece}
    {v0 v1 v2 : List Bool} {q0 q1 q2 : List BfsState}
    (h1 : pushInv stride size b piece v0 q0 v1 q1)
    (h2 : pushInv stride size b piece v1 q1 v2 q2) :
    pushInv stride size b piece v0 q0 v2 q2 := by
  obtain ⟨a1, a2, a3, a4, a5, a6⟩ := h1
  obtain ⟨b1, b2, b3, b4, b5, b6⟩ := h2
  refine ⟨b1, by omega, ?_, fun u hu => b4 u (a4 u hu), fun i hi => b5 i (a5 i hi), ?_⟩
  · intro u hu
    rcases b3 u hu with h | h
    · exact a3 u h
    · exact Or.inr h
  · intro i hi
    rcases b6 i hi with h | ⟨u, hu, hok, hi2⟩
    · rcases a6 i h with h2 | ⟨u, hu, hok, hi2⟩
      · exact Or.inl h2
      · exact Or.inr ⟨u, b4 u hu, hok, hi2⟩
    · exact Or.inr ⟨u, hu, hok, hi2⟩

/-- One guarded push of a non-colliding state is a `pushInv` step. -/
theorem tryPush_pushInv (stride size : Nat) (b : Board) (piece : Piece)
    (v : List Bool) (q : List BfsState) (s : BfsState) (hvlen : v.length = size)
    (hok : stateOK b piece s) :
    pushInv stride size b piece v q (tryPush stride size v q s).1
      (tryPush stride size v q s).2 := by
  obtain ⟨c1, c2, c3, c4, c5, c6, c7⟩ := tryPush_spec stride size v q s hvlen
  refine ⟨c1, c2, ?_, c4, c5, ?_⟩
  · intro u hu
    rcases c3 u hu with h | h
    · exact Or.inl h
    · rw [h]
      exact Or.inr hok
  · intro i hi
    rcases c6 i hi with h | ⟨hmem, henc⟩
    · exact Or.inl h
    · exact Or.inr ⟨s, hmem, hok, henc⟩
/-- Full specification of one node expansion: the visited/queue pair makes
a `pushInv` step, and when the node can move down, the one-lower node ends
up queued or was already flagged. -/
theorem pushSuccessors_spec (b : Board) (piece : Piece) (visited : List Bool)
    (queue : List BfsState) (s0 : BfsState) (cm : Bool)
    (hvlen : visited.length = (b.totalHeight + 8) * (b.width + 8) * 4)
    (hs0 : stateOK b piece s0)
    (hcm : cm = !b.collides piece s0.rotation s0.x (s0.y - 1)) :
    pushInv (b.width + 8) ((b.totalHeight + 8) * (b.width + 8) * 4) b piece visited queue
      (pushSuccessors b piece (b.width + 8) ((b.totalHeight + 8) * (b.width + 8) * 4)
        visited queue s0 cm).1
      (pushSuccessors b piece (b.width + 8) ((b.totalHeight + 8) * (b.width + 8) * 4)
        visited queue s0 cm).2 ∧
    (cm = true →
      (⟨s0.x, s0.y - 1, s0.rotation⟩ : BfsState) ∈
        (pushSuccessors b piece (b.width + 8) ((b.totalHeight + 8) * (b.width + 8) * 4)
          visited queue s0 cm).2 ∨
      visited.getD (enc (b.width + 8) ⟨s0.x, s0.y - 1, s0.rotation⟩).toNat false = true) := by
  unfold pushSuccessors
  rcases hst1 : (if cm = true then tryPush (b.width + 8)
      ((b.totalHeight + 8) * (b.width + 8) * 4) visited queue
      ⟨s0.x, s0.y - 1, s0.rotation⟩ else (visited, queue)) with ⟨v1, q1⟩
  have hinv1 : pushInv (b.width + 8) ((b.totalHeight + 8) * (b.width + 8) * 4) b piece
      visited queue v1 q1 := by
    by_cases hc : cm = true
    · rw [if_pos hc] at hst1
      have hok : stateOK b piece ⟨s0.x, s0.y - 1, s0.rotation⟩ := by
        unfold stateOK
        try dsimp only
        rw [hc] at hcm
        cases h2 : b.collides piece s0.rotation s0.x (s0.y - 1)
        · rfl
        · rw [h2] at hcm
          exact absurd hcm.symm (by decide)
      have := tryPush_pushInv (b.width + 8) ((b.totalHeight + 8) * (b.width + 8) * 4)
        b piece visited queue ⟨s0.x, s0.y - 1, s0.rotation⟩ hvlen hok
      rwa [hst1] at this
    · rw [if_neg hc] at hst1
      obtain ⟨rfl, rfl⟩ : visited = v1 ∧ queue = q1 := by
        have h1 := congrArg Prod.fst hst1
        have h2 := congrArg Prod.snd hst1
        exact ⟨h1, h2⟩
      exact pushInv_refl _ _ b piece _ _ hvlen
  have hdown1 : cm = true → (⟨s0.x, s0.y - 1, s0.rotation⟩ : BfsState) ∈ q1 ∨
      visited.getD (enc (b.width + 8) ⟨s0.x, s0.y - 1, s0.rotation⟩).toNat false = true := by
    intro hc
    rw [if_pos hc] at hst1
    have hok : stateOK b piece ⟨s0.x, s0.y - 1, s0.rotation⟩ := by
      unfold stateOK
      try dsimp only
      rw [hc] at hcm
      cases h2 : b.collides piece s0.rotation s0.x (s0.y - 1)
      · rfl
      · rw [h2] at hcm
        exact absurd hcm.symm (by decide)
    obtain ⟨hb1, hb2, hb3, hb4⟩ := stateOK_bounds b piece _ hok
    obtain ⟨hr1, hr2⟩ := encode_range b.width b.totalHeight
      ⟨s0.x, s0.y - 1, s0.rotation⟩ hb1 hb2 hb3 hb4
    obtain ⟨c1, c2, c3, c4, c5, c6, c7⟩ := tryPush_spec (b.width + 8)
      ((b.totalHeight + 8) * (b.width + 8) * 4) visited queue
      ⟨s0.x, s0.y - 1, s0.rotation⟩ hvlen
    have := c7 hr1 hr2
    rwa [hst1] at this
  try dsimp only
  rcases hst2 : (if (!b.collides piece s0.rotation (s0.x - 1) s0.y) = true then
      tryPush (b.width + 8) ((b.totalHeight + 8) * (b.width + 8) * 4) v1 q1
        ⟨s0.x - 1, s0.y, s0.rotation⟩ else (v1, q1)) with ⟨v2, q2⟩
  have hinv2 : pushInv (b.width + 8) ((b.totalHeight + 8) * (b.width + 8) * 4) b piece
      v1 q1 v2 q2 := by
    by_cases hc : (!b.collides piece s0.rotation (s0.x - 1) s0.y) = true
    · rw [if_pos hc] at hst2
      have hok : stateOK b piece ⟨s0.x - 1, s0.y, s0.rotation⟩ := by
        unfold stateOK
        try dsimp only
        cases h2 : b.collides piece s0.rotation (s0.x - 1) s0.y
        · rfl
        · rw [h2] at hc
          exact absurd hc (by decide)
      have := tryPush_pushInv (b.width + 8) ((b.totalHeight + 8) * (b.width + 8) * 4) b piece v1 q1 ⟨s0.x - 1, s0.y, s0.rotation⟩ hinv1.1 hok
      rwa [hst2] at this
    · rw [if_neg hc] at hst2
      obtain ⟨rfl, rfl⟩ : v1 = v2 ∧ q1 = q2 :=
        ⟨congrArg Prod.fst hst2, congrArg Prod.snd hst2⟩
      exact pushInv_refl _ _ b piece _ _ hinv1.1
  try dsimp only
  rcases hst3 : (if (!b.collides piece s0.rotation (s0.x + 1) s0.y) = true then
      tryPush (b.width + 8) ((b.totalHeight + 8) * (b.width + 8) * 4) v2 q2
        ⟨s0.x + 1, s0.y, s0.rotation⟩ else (v2, q2)) with ⟨v3, q3⟩
  have hinv3 : pushInv (b.width + 8) ((b.totalHeight + 8) * (b.width + 8) * 4) b piece
      v2 q2 v3 q3 := by
    by_cases hc : (!b.collides piece s0.rotation (s0.x + 1) s0.y) = true
    · rw [if_pos hc] at hst3
      have hok : stateOK b piece ⟨s0.x + 1, s0.y, s0.rotation⟩ := by
        unfold stateOK
        try dsimp only
        cases h2 : b.collides piece s0.rotation (s0.x + 1) s0.y
        · rfl
        · rw [h2] at hc
          exact absurd hc (by decide)
      have := tryPush_pushInv (b.width + 8) ((b.totalHeight + 8) * (b.width + 8) * 4) b piece v2 q2 ⟨s0.x + 1, s0.y, s0.rotation⟩ hinv2.1 hok
      rwa [hst3] at this
    · rw [if_neg hc] at hst3
      obtain ⟨rfl, rfl⟩ : v2 = v3 ∧ q2 = q3 :=
        ⟨congrArg Prod.fst hst3, congrArg Prod.snd hst3⟩
      exact pushInv_refl _ _ b piece _ _ hinv2.1
  try dsimp only
  rcases hrot4 : tryRotate b piece s0.rotation 1 s0.x s0.y with _ | r4 <;>
    rcases hrot5 : tryRotate b piece s0.rotation (-1) s0.x s0.y with _ | r5 <;>
      try dsimp only
  case none.none =>
    have hall := pushInv_trans hinv1 (pushInv_trans hinv2 hinv3)
    refine ⟨hall, ?_⟩
    intro hc
    rcases hdown1 hc with h | h
    · exact Or.inl (hinv3.2.2.2.1 _ (hinv2.2.2.2.1 _ h))
    · exact Or.inr h
  case none.some =>
    have hok5 : stateOK b piece ⟨r5.x, r5.y, r5.rotation⟩ :=
      tryRotate_sound b piece s0.rotation (-1) s0.x s0.y r5 hrot5
    have hinv5 := tryPush_pushInv (b.width + 8) ((b.totalHeight + 8) * (b.width + 8) * 4)
      b piece v3 q3 ⟨r5.x, r5.y, r5.rotation⟩ hinv3.1 hok5
    have hall := pushInv_trans hinv1 (pushInv_trans hinv2 (pushInv_trans hinv3 hinv5))
    refine ⟨hall, ?_⟩
    intro hc
    rcases hdown1 hc with h | h
    · exact Or.inl (hinv5.2.2.2.1 _ (hinv3.2.2.2.1 _ (hinv2.2.2.2.1 _ h)))
    · exact Or.inr h
  case some.none =>
    have hok4 : stateOK b piece ⟨r4.x, r4.y, r4.rotation⟩ :=
      tryRotate_sound b piece s0.rotation 1 s0.x s0.y r4 hrot4
    have hinv4 := tryPush_pushInv (b.width + 8) ((b.totalHeight + 8) * (b.width + 8) * 4)
      b piece v3 q3 ⟨r4.x, r4.y, r4.rotation⟩ hinv3.1 hok4
    have hall := pushInv_trans hinv1 (pushInv_trans hinv2 (pushInv_trans hinv3 hinv4))
    refine ⟨hall, ?_⟩
    intro hc
    rcases hdown1 hc with h | h
    · exact Or.inl (hinv4.2.2.2.1 _ (hinv3.2.2.2.1 _ (hinv2.2.2.2.1 _ h)))
    · exact Or.inr h
  case some.some =>
    have hok4 : stateOK b piece ⟨r4.x, r4.y, r4.rotation⟩ :=
      tryRotate_sound b piece s0.rotation 1 s0.x s0.y r4 hrot4
    have hinv4 := tryPush_pushInv (b.width + 8) ((b.totalHeight + 8) * (b.width + 8) * 4)
      b piece v3 q3 ⟨r4.x, r4.y, r4.rotation⟩ hinv3.1 hok4
    have hok5 : stateOK b piece ⟨r5.x, r5.y, r5.rotation⟩ :=
      tryRotate_sound b piece s0.rotation (-1) s0.x s0.y r5 hrot5
    have hinv5 := tryPush_pushInv (b.width + 8) ((b.totalHeight + 8) * (b.width + 8) * 4)
      b piece
      (tryPush (b.width + 8) ((b.totalHeight + 8) * (b.width + 8) * 4) v3 q3
        ⟨r4.x, r4.y, r4.rotation⟩).1
      (tryPush (b.width + 8) ((b.totalHeight + 8) * (b.width + 8) * 4) v3 q3
        ⟨r4.x, r4.y, r4.rotation⟩).2
      ⟨r5.x, r5.y, r5.rotation⟩ hinv4.1 hok5
    have hall := pushInv_trans hinv1 (pushInv_trans hinv2 (pushInv_trans hinv3
      (pushInv_trans hinv4 hinv5)))
    refine ⟨hall, ?_⟩
    intro hc
    rcases hdown1 hc with h | h
    · exact Or.inl (hinv5.2.2.2.1 _ (hinv4.2.2.2.1 _ (hinv3.2.2.2.1 _ (hinv2.2.2.2.1 _ h))))
    · exact Or.inr h
/-- Chains compose through a soft drop. -/
theorem inChain_down_trans (b : Board) (piece : Piece) (s s0 t : BfsState)
    (h1 : inChain b piece s s0)
    (hd : b.collides piece s0.rotation s0.x (s0.y - 1) = false)
    (h2 : inChain b piece ⟨s0.x, s0.y - 1, s0.rotation⟩ t) :
    inChain b piece s t := by
  obtain ⟨a1, a2, a3, a4⟩ := h1
  obtain ⟨b1, b2, b3, b4⟩ := h2
  dsimp only at b1 b2 b3 b4
  refine ⟨by rw [b1, a1], by rw [b2, a2], by omega, ?_⟩
  intro y' hy1 hy2
  by_cases hcase : s0.y ≤ y'
  · exact a4 y' hcase hy2
  · have hb := b4 y' hy1 (by omega)
    rw [a1, a2] at hb
    exact hb
/-- Master invariant proof for the BFS work loop: with enough fuel, a
consistent queue/visited/keys/acc state that either already recorded a
placement or still holds a live witness ends in a non-empty, sound,
key-deduplicated placement list. -/
theorem bfsLoop_spec (b : Board) (piece : Piece) :
    ∀ (fuel : Nat) (queue : List BfsState) (visited : List Bool)
      (keys : List (Rotation × Int × Int)) (acc : List ReachablePlacement),
      visited.length = (b.totalHeight + 8) * (b.width + 8) * 4 →
      (∀ s ∈ queue, stateOK b piece s) →
      keys.Nodup →
      keys = acc.map (fun p => (p.rotation, p.x, p.y)) →
      (∀ p ∈ acc, p.piece = piece ∧
        b.collides piece p.rotation p.x p.y = false ∧
        b.collides piece p.rotation p.x (p.y - 1) = true) →
      queue.length + visited.count false ≤ fuel →
      (acc ≠ [] ∨ ∃ s, s ∈ queue ∧ stateOK b piece s ∧
        ∀ t : BfsState, inChain b piece s t →
          visited.getD (enc (b.width + 8) t).toNat false = true → t ∈ queue) →
      bfsLoop b piece (b.width + 8) ((b.totalHeight + 8) * (b.width + 8) * 4)
        fuel queue visited keys acc ≠ [] ∧
      (∀ p ∈ bfsLoop b piece (b.width + 8) ((b.totalHeight + 8) * (b.width + 8) * 4)
          fuel queue visited keys acc,
        p.piece = piece ∧ b.collides piece p.rotation p.x p.y = false ∧
        b.collides piece p.rotation p.x (p.y - 1) = true) ∧
      ((bfsLoop b piece (b.width + 8) ((b.totalHeight + 8) * (b.width + 8) * 4)
          fuel queue visited keys acc).map (fun p => (p.rotation, p.x, p.y))).Nodup := by
  intro fuel
  induction fuel with
  | zero =>
    intro queue visited keys acc hvlen hqOK hnodup hcorr hsound hmeas hW
    have hq : queue = [] := by
      cases queue with
      | nil => rfl
      | cons a l =>
        exfalso
        simp only [List.length_cons] at hmeas
        omega
    subst hq
    have hacc : acc ≠ [] := by
      rcases hW with h | ⟨s, hs, _⟩
      · exact h
      · exact absurd hs (by simp)
    simp only [bfsLoop]
    exact ⟨hacc, hsound, by rw [← hcorr]; exact hnodup⟩
  | succ fuel ih =>
    intro queue visited keys acc hvlen hqOK hnodup hcorr hsound hmeas hW
    cases queue with
    | nil =>
      have hacc : acc ≠ [] := by
        rcases hW with h | ⟨s, hs, _⟩
        · exact h
        · exact absurd hs (by simp)
      simp only [bfsLoop]
      exact ⟨hacc, hsound, by rw [← hcorr]; exact hnodup⟩
    | cons s0 rest =>
      have hs0OK : stateOK b piece s0 := hqOK s0 (List.mem_cons_self _ _)
      have hrestOK : ∀ s ∈ rest, stateOK b piece s :=
        fun s hs => hqOK s (List.mem_cons_of_mem _ hs)
      simp only [bfsLoop]
      obtain ⟨hinv, hdown⟩ := pushSuccessors_spec b piece visited rest s0
        (!b.collides piece s0.rotation s0.x (s0.y - 1)) hvlen hs0OK rfl
      rcases hps : pushSuccessors b piece (b.width + 8)
          ((b.totalHeight + 8) * (b.width + 8) * 4) visited rest s0
          (!b.collides piece s0.rotation s0.x (s0.y - 1)) with ⟨v5, q5⟩
      rw [hps] at hinv hdown
      dsimp only at hinv hdown
      obtain ⟨hvlen5, hmeas5, hq5src, hrest5, hmono5, hnew5⟩ := hinv
      have hq5OK : ∀ u ∈ q5, stateOK b piece u := by
        intro u hu
        rcases hq5src u hu with h | h
        · exact hrestOK u h
        · exact h
      have hflags : ∀ t : BfsState, stateOK b piece t →
          v5.getD (enc (b.width + 8) t).toNat false = true →
          visited.getD (enc (b.width + 8) t).toNat false = true ∨ t ∈ q5 := by
        intro t htOK hflag
        rcases hnew5 _ hflag with h | ⟨u, hu, huOK, henc⟩
        · exact Or.inl h
        · right
          obtain ⟨e1, e2, e3, e4⟩ := stateOK_bounds b piece t htOK
          obtain ⟨f1, f2, f3, f4⟩ := stateOK_bounds b piece u huOK
          obtain ⟨g1, _⟩ := encode_range b.width b.totalHeight t e1 e2 e3 e4
          obtain ⟨g2, _⟩ := encode_range b.width b.totalHeight u f1 f2 f3 f4
          have hencInt : enc (b.width + 8) u = enc (b.width + 8) t := by omega
          have := encode_inj b.width b.totalHeight u t f1 f2 f3 f4 e1 e2 e3 e4 hencInt
          rw [← this]
          exact hu
      by_cases hrec : (!b.collides piece s0.rotation s0.x (s0.y - 1)) = false ∧
          ¬ (s0.rotation, s0.x, s0.y) ∈ keys
      · rw [if_pos hrec]
        have hgr : b.collides piece s0.rotation s0.x (s0.y - 1) = true := by
          obtain ⟨h1, _⟩ := hrec
          cases h2 : b.collides piece s0.rotation s0.x (s0.y - 1)
          · rw [h2] at h1
            exact absurd h1 (by decide)
          · rfl
        refine ih q5 v5 (keys ++ [(s0.rotation, s0.x, s0.y)])
          (acc ++ [⟨piece, s0.rotation, s0.x, s0.y⟩]) hvlen5 hq5OK ?_ ?_ ?_ ?_ ?_
        · rw [List.nodup_append]
          refine ⟨hnodup, List.nodup_singleton _, ?_⟩
          intro k hk hka
          simp only [List.mem_singleton] at hka
          subst hka
          exact hrec.2 hk
        · rw [List.map_append, hcorr]
          rfl
        · intro p hp
          rcases List.mem_append.mp hp with h | h
          · exact hsound p h
          · obtain rfl := List.mem_singleton.mp h
            exact ⟨rfl, hs0OK, hgr⟩
        · simp only [List.length_cons] at hmeas
          omega
        · left
          simp
      · rw [if_neg hrec]
        refine ih q5 v5 keys acc hvlen5 hq5OK hnodup hcorr hsound ?_ ?_
        · simp only [List.length_cons] at hmeas
          omega
        · rcases hW with hacc | ⟨s, hsq, hsOK, hschain⟩
          · exact Or.inl hacc
          by_cases hin : inChain b piece s s0
          · by_cases hcmd : b.collides piece s0.rotation s0.x (s0.y - 1) = false
            · -- s0 can still drop: move the witness one row down
              right
              have hdOK : stateOK b piece ⟨s0.x, s0.y - 1, s0.rotation⟩ := by
                unfold stateOK
                dsimp only
                exact hcmd
              have hd5 : (⟨s0.x, s0.y - 1, s0.rotation⟩ : BfsState) ∈ q5 := by
                rcases hdown (by rw [hcmd]; rfl) with h | h
                · exact h
                · have := hschain ⟨s0.x, s0.y - 1, s0.rotation⟩
                    (inChain_down_trans b piece s s0 _ hin hcmd
                      (inChain_self b piece _ hdOK)) h
                  rcases List.mem_cons.mp this with h2 | h2
                  · exfalso
                    have : s0.y - 1 = s0.y := congrArg BfsState.y h2
                    omega
                  · exact hrest5 _ h2
              refine ⟨⟨s0.x, s0.y - 1, s0.rotation⟩, hd5, hdOK, ?_⟩
              intro t htchain hflag
              have htOK : stateOK b piece t := inChain_stateOK b piece _ t htchain
              have htchainS : inChain b piece s t :=
                inChain_down_trans b piece s s0 t hin hcmd htchain
              rcases hflags t htOK hflag with h | h
              · have := hschain t htchainS h
                rcases List.mem_cons.mp this with h2 | h2
                · exfalso
                  obtain ⟨c1, c2, c3, c4⟩ := htchain
                  dsimp only at c3
                  have : t.y = s0.y := by rw [h2]
                  omega
                · exact hrest5 _ h2
              · exact h
            · -- s0 is grounded but already keyed: something was recorded before
              left
              have hkey : (s0.rotation, s0.x, s0.y) ∈ keys := by
                by_cases hk : (s0.rotation, s0.x, s0.y) ∈ keys
                · exact hk
                · exfalso
                  apply hrec
                  refine ⟨?_, hk⟩
                  cases h2 : b.collides piece s0.rotation s0.x (s0.y - 1)
                  · exact absurd h2 hcmd
                  · rfl
              rw [hcorr] at hkey
              intro haccnil
              rw [haccnil] at hkey
              exact absurd hkey (by simp)
          · -- the popped node is off the witness chain: keep the witness
            right
            have hsrest : s ∈ rest := by
              rcases List.mem_cons.mp hsq with h2 | h2
              · exfalso
                exact hin (h2 ▸ inChain_self b piece s hsOK)
              · exact h2
            refine ⟨s, hrest5 _ hsrest, hsOK, ?_⟩
            intro t htchain hflag
            have htOK : stateOK b piece t := inChain_stateOK b piece s t htchain
            rcases hflags t htOK hflag with h | h
            · have := hschain t htchain h
              rcases List.mem_cons.mp this with h2 | h2
              · exfalso
                exact hin (h2 ▸ htchain)
              · exact hrest5 _ h2
            · exact h
/-- Reads of an all-false array are false at every index. -/
theorem getD_replicate_false (n i : Nat) : (List.replicate n false).getD i false = false := by
  rw [List.getD_eq_getElem?_getD, List.getElem?_replicate]
  split <;> rfl

/-- C5: from a non-colliding spawn the enumerator returns at least one
placement; every returned placement is non-colliding in place and
colliding one row below (grounded); and the (rotation, x, y) keys are
pairwise distinct. -/
theorem generate_placements_grounded (b : Board) (piece : Piece) (sx sy : Int)
    (hcol : b.collides piece 0 sx sy = false) :
    1 ≤ (generatePlacements b piece sx sy).length ∧
    (∀ p ∈ generatePlacements b piece sx sy,
      p.piece = piece ∧ b.collides piece p.rotation p.x p.y = false ∧
      b.collides piece p.rotation p.x (p.y - 1) = true) ∧
    ((generatePlacements b piece sx sy).map fun p => (p.rotation, p.x, p.y)).Nodup := by
  have hspawnOK : stateOK b piece ⟨sx, sy, 0⟩ := hcol
  obtain ⟨e1, e2, e3, e4⟩ := stateOK_bounds b piece _ hspawnOK
  obtain ⟨g1, g2⟩ := encode_range b.width b.totalHeight ⟨sx, sy, 0⟩ e1 e2 e3 e4
  unfold generatePlacements
  rw [if_neg (by rw [hcol]; exact Bool.false_ne_true)]
  dsimp only
  rw [if_pos ⟨g1, g2⟩]
  have hlen0 : (List.replicate ((b.totalHeight + 8) * (b.width + 8) * 4) false).length =
      (b.totalHeight + 8) * (b.width + 8) * 4 := List.length_replicate _ _
  have hvlen : ((List.replicate ((b.totalHeight + 8) * (b.width + 8) * 4) false).set
      (encodeState sx sy 0 (b.width + 8)).toNat true).length =
      (b.totalHeight + 8) * (b.width + 8) * 4 := by
    rw [List.length_set]
    exact hlen0
  have hmain := bfsLoop_spec b piece ((b.totalHeight + 8) * (b.width + 8) * 4 + 1)
    [⟨sx, sy, 0⟩]
    ((List.replicate ((b.totalHeight + 8) * (b.width + 8) * 4) false).set
      (encodeState sx sy 0 (b.width + 8)).toNat true)
    [] [] hvlen
    (by
      intro s hs
      rw [List.mem_singleton.mp hs]
      exact hspawnOK)
    List.nodup_nil rfl (by intro p hp; exact absurd hp (by simp))
    (by
      have hcount : ((List.replicate ((b.totalHeight + 8) * (b.width + 8) * 4) false).set
          (encodeState sx sy 0 (b.width + 8)).toNat true).count false ≤
          (b.totalHeight + 8) * (b.width + 8) * 4 := by
        have := List.count_le_length false
          ((List.replicate ((b.totalHeight + 8) * (b.width + 8) * 4) false).set
            (encodeState sx sy 0 (b.width + 8)).toNat true)
        rwa [hvlen] at this
      simp only [List.length_singleton]
      omega)
    (by
      right
      refine ⟨⟨sx, sy, 0⟩, List.mem_singleton.mpr rfl, hspawnOK, ?_⟩
      intro t htchain hflag
      have htOK : stateOK b piece t := inChain_stateOK b piece _ t htchain
      obtain ⟨f1, f2, f3, f4⟩ := stateOK_bounds b piece t htOK
      obtain ⟨g3, g4⟩ := encode_range b.width b.totalHeight t f1 f2 f3 f4
      by_cases hsame : (encodeState sx sy 0 (b.width + 8)).toNat =
          (enc (b.width + 8) t).toNat
      · have hencInt : enc (b.width + 8) ⟨sx, sy, 0⟩ = enc (b.width + 8) t := by
          have h0 : enc (b.width + 8) (⟨sx, sy, 0⟩ : BfsState) =
              encodeState sx sy 0 (b.width + 8) := rfl
          omega
        have := encode_inj b.width b.totalHeight ⟨sx, sy, 0⟩ t e1 e2 e3 e4 f1 f2 f3 f4
          hencInt
        rw [← this]
        exact List.mem_singleton.mpr rfl
      · exfalso
        rw [getD_set_ne _ _ _ hsame] at hflag
        rw [getD_replicate_false] at hflag
        exact absurd hflag (by decide))
  obtain ⟨h1, h2, h3⟩ := hmain
  exact ⟨List.length_pos.mpr h1, h2, h3⟩

set_option maxRecDepth 200000 in
/-- Witness for C5 at the O piece's spawn on the empty board. -/
theorem generate_placements_grounded_witness :
    bEmpty36.collides .O 0 0 1 = false ∧
    (1 ≤ (generatePlacements bEmpty36 .O 0 1).length ∧
     (∀ p ∈ generatePlacements bEmpty36 .O 0 1,
       p.piece = .O ∧ bEmpty36.collides .O p.rotation p.x p.y = false ∧
       bEmpty36.collides .O p.rotation p.x (p.y - 1) = true) ∧
     ((generatePlacements bEmpty36 .O 0 1).map fun p => (p.rotation, p.x, p.y)).Nodup) :=
  ⟨by decide, generate_placements_grounded bEmpty36 .O 0 1 (by decide)⟩


end RTetris
